import Mathlib

/-!
Verification of the company-name entity-resolution core of the
Sustainability-Signals repository.

The embedded code comes from two source files:
  src/scripts/compare_market_cap_eu.py   (normalizer, suffix stripper,
    key derivation, reference index, match engine `row_exists`)
  src/scripts/refresh_market_cap_missing.py  (its own `symbol_base`,
    `norm_name`, `row_key`, and the annotation-carrying refresh `main`)

Python strings are modelled as `Str := List Char`; Python dict rows are
modelled as total functions from column name to value, with a missing
column reading as the empty string (every read of a row in the source
goes through `row.get(col, "") or ""`, which conflates missing, None
and empty; `dict.setdefault(col, "")` on a column absent from the row
is modelled as writing the empty string).  Python sets of strings are
modelled as duplicate-free lists built by `setAdd`; only membership and
size are ever observed.  CSV round-trips between the two refresh runs
are modelled by `Refresh.rowOfCSV`, which rebuilds a row function from
a header and a list of cell values.
-/

set_option maxRecDepth 8192

/-- Python strings are modelled as lists of characters. -/
abbrev Str := List Char

/-- A Python dict row: column name to cell value, absent column = "". -/
abbrev Row := Str → Str

/-- Build a `Str` from a Lean string literal. -/
def strL (s : String) : Str := s.data

/-- The "Name" column read by the match engine and the refresh key. -/
def NameF : Str := strL "Name"

/-- The "Symbol" column read by the symbol rule and the refresh key. -/
def SymF : Str := strL "Symbol"

/-- Whitespace characters recognised by Python `str.strip()` and by the
regex class `\s` (the ASCII/Latin-1 portion, which is what this data
contains). -/
def isPySpace (c : Char) : Bool :=
  c = ' ' || c = '\t' || c = '\n' || c = Char.ofNat 11 || c = Char.ofNat 12 ||
    c = '\r' || c = Char.ofNat 28 || c = Char.ofNat 29 || c = Char.ofNat 30 ||
    c = Char.ofNat 31 || c = Char.ofNat 133 || c = Char.ofNat 160

/-- Python `str.strip()`: drop leading and trailing whitespace. -/
def pyStrip (s : Str) : Str :=
  ((s.dropWhile isPySpace).reverse.dropWhile isPySpace).reverse

/-- Python `str.lower()` restricted to ASCII letters; other characters
are left unchanged (accented letters are handled by `stripDiacritics`
before lowering, as in the source). -/
def pyLower (c : Char) : Char :=
  if 'A' ≤ c && c ≤ 'Z' then Char.ofNat (c.toNat + 32) else c

/-- Python `str.upper()` restricted to ASCII letters. -/
def pyUpper (c : Char) : Char :=
  if 'a' ≤ c && c ≤ 'z' then Char.ofNat (c.toNat - 32) else c

/-- Lowercase ASCII alphanumeric test, the complement of the source's
`_NON_ALNUM_RE = [^0-9a-z]+` character class. -/
def isAlnumLower (c : Char) : Bool :=
  ('a' ≤ c && c ≤ 'z') || ('0' ≤ c && c ≤ '9')

/-- Python `sep.join(tokens)`. -/
def joinSep (sep : Str) : List Str → Str
  | [] => []
  | x :: xs =>
    match xs with
    | [] => x
    | _ :: _ => x ++ sep ++ joinSep sep xs

namespace Compare

/-- Stopword set from compare_market_cap_eu.py. -/
def STOPWORDS : List Str :=
  (["and", "of", "the", "de", "la", "le", "di", "del", "della", "van", "von",
    "der", "den", "du", "da", "dos", "das", "do", "y", "et"]).map strL

/-- Generic corporate tokens from compare_market_cap_eu.py. -/
def GENERIC_TOKENS : List Str :=
  (["bank", "banco", "banque", "insurance", "assurance", "reinsurance",
    "capital", "financial", "finance", "invest", "investments", "investment",
    "partners", "partner", "services", "service", "solutions", "technology",
    "technologies", "systems", "system", "international", "industries",
    "industry", "energy", "resources", "communications", "telecom",
    "telecommunications", "pharma", "pharmaceutical", "holding", "holdings",
    "group", "company", "companies", "corp", "corporation"]).map strL

/-- Single-token legal suffixes from compare_market_cap_eu.py. -/
def SUFFIX_TOKENS : List Str :=
  (["se", "sa", "plc", "nv", "ag", "spa", "oyj", "ab", "as", "asa", "gmbh",
    "kgaa", "kg", "sarl", "bv", "co", "company", "corp", "corporation",
    "inc", "ltd", "limited", "holding", "holdings", "group"]).map strL

/-- Multi-token suffix patterns from compare_market_cap_eu.py, in source
order (the loop takes the first pattern that matches the tail). -/
def SUFFIX_PATTERNS : List (List Str) :=
  [(["s", "p", "a"]).map strL, (["s", "a"]).map strL,
   (["s", "e"]).map strL, (["a", "s"]).map strL]

/-- Apostrophe variants removed by `clean_tokens` (ASCII apostrophe,
right/left single quotation mark, grave accent, acute accent). -/
def APOSTROPHES : List Char :=
  [Char.ofNat 39, Char.ofNat 0x2019, Char.ofNat 0x2018,
   Char.ofNat 0x60, Char.ofNat 0xb4]

/-- Decomposition table for `stripDiacritics`: accented Latin letters
and their base letters. -/
def diacriticBase : List (Char × Char) :=
  [('á', 'a'), ('à', 'a'), ('â', 'a'), ('ä', 'a'), ('ã', 'a'), ('å', 'a'),
   ('Á', 'A'), ('À', 'A'), ('Â', 'A'), ('Ä', 'A'), ('Ã', 'A'), ('Å', 'A'),
   ('é', 'e'), ('è', 'e'), ('ê', 'e'), ('ë', 'e'),
   ('É', 'E'), ('È', 'E'), ('Ê', 'E'), ('Ë', 'E'),
   ('í', 'i'), ('ì', 'i'), ('î', 'i'), ('ï', 'i'),
   ('Í', 'I'), ('Ì', 'I'), ('Î', 'I'), ('Ï', 'I'),
   ('ó', 'o'), ('ò', 'o'), ('ô', 'o'), ('ö', 'o'), ('õ', 'o'),
   ('Ó', 'O'), ('Ò', 'O'), ('Ô', 'O'), ('Ö', 'O'), ('Õ', 'O'),
   ('ú', 'u'), ('ù', 'u'), ('û', 'u'), ('ü', 'u'),
   ('Ú', 'U'), ('Ù', 'U'), ('Û', 'U'), ('Ü', 'U'),
   ('ý', 'y'), ('ÿ', 'y'), ('Ý', 'Y'),
   ('ñ', 'n'), ('Ñ', 'N'), ('ç', 'c'), ('Ç', 'C'),
   ('š', 's'), ('Š', 'S'), ('ž', 'z'), ('Ž', 'Z'),
   ('č', 'c'), ('Č', 'C'), ('ř', 'r'), ('Ř', 'R'),
   ('ő', 'o'), ('Ő', 'O'), ('ű', 'u'), ('Ű', 'U'),
   ('ą', 'a'), ('ę', 'e'), ('ł', 'l'), ('Ł', 'L')]

/-- Combining diacritical marks (U+0300 to U+036F) are dropped. -/
def isCombining (c : Char) : Bool :=
  0x300 ≤ c.toNat && c.toNat ≤ 0x36f

/-- Modelled from `_strip_diacritics` (`unicodedata.normalize("NFKD")`
followed by dropping combining marks).  Full Unicode NFKD is not
embedded; the fixed table above decomposes accented Latin letters to
their base letters, combining marks are dropped, and every other
character (in particular all of ASCII, on which NFKD is the identity)
passes through unchanged. -/
def stripDiacritics (s : Str) : Str :=
  s.foldr
    (fun c acc =>
      match diacriticBase.find? (fun p => p.1 = c) with
      | some p => p.2 :: acc
      | none => if isCombining c then acc else c :: acc)
    []

/-- The `s.replace("&", " and ")` step of `clean_tokens`. -/
def expandAmp (s : Str) : Str :=
  s.foldr (fun c acc => if c = '&' then strL " and " ++ acc else c :: acc) []

/-- Split a character list into its maximal runs of characters
satisfying `p`; this is the combined effect of the source's
`_NON_ALNUM_RE.sub(" ", s)`, `_WS_RE.sub(" ", s).strip()`, split on
space and drop of empty fragments. -/
def splitRuns (p : Char → Bool) : Str → List Str
  | [] => []
  | c :: cs =>
    let rest := splitRuns p cs
    if p c then
      match cs with
      | c2 :: _ =>
        if p c2 then
          match rest with
          | t :: ts => (c :: t) :: ts
          | [] => [[c]]
        else [c] :: rest
      | [] => [[c]]
    else rest

/-- `clean_tokens` from compare_market_cap_eu.py: strip, remove
diacritics, lowercase, expand `&` to " and ", delete apostrophe
variants, then split on runs of non-alphanumeric characters. -/
def clean_tokens (name : Str) : List Str :=
  let s := stripDiacritics (pyStrip name)
  let s := s.map pyLower
  let s := expandAmp s
  let s := s.filter (fun c => !APOSTROPHES.contains c)
  splitRuns isAlnumLower s

/-- Does the token list `t` end with the pattern `pat`
(`tuple(t[-len(pat):]) == pat` guarded by the length check)? -/
def tailIs (t pat : List Str) : Bool :=
  decide (pat.length ≤ t.length) && decide (t.drop (t.length - pat.length) = pat)

/-- One iteration of the `while t and changed` loop body of
`strip_suffix`: first the multi-token patterns in order, else the
single-token suffix set; `none` when neither rule fires. -/
def stripOnce (t : List Str) : Option (List Str) :=
  match SUFFIX_PATTERNS.find? (fun pat => tailIs t pat) with
  | some pat => some (t.take (t.length - pat.length))
  | none =>
    match t.getLast? with
    | some lst => if SUFFIX_TOKENS.contains lst then some t.dropLast else none
    | none => none

/-- The `while t and changed` loop of `strip_suffix`, expressed as a
bounded iterative reduction (iteration budget `fuel`).  Each firing of
`stripOnce` removes at least one token, so any `fuel` of at least the
input length reaches the loop's fixed point (`stripLoopFuel_congr`
below shows the result no longer depends on the exact fuel); this makes
the model of the unbounded Python loop structurally recursive. -/
def stripLoopFuel : Nat → List Str → List Str
  | 0, t => t
  | fuel + 1, t =>
    match stripOnce t with
    | none => t
    | some t2 => stripLoopFuel fuel t2

/-- Number of removal iterations the loop performs within `fuel`. -/
def stripStepsFuel : Nat → List Str → Nat
  | 0, _ => 0
  | fuel + 1, t =>
    match stripOnce t with
    | none => 0
    | some t2 => stripStepsFuel fuel t2 + 1

/-- The `while t and changed` loop of `strip_suffix`, run to its fixed
point (fuel `t.length` suffices, see `stripLoopFuel_congr`).  When a
removal empties the list the loop exits at once
(`stripOnce [] = none`), matching the `while t` guard. -/
def stripLoop (t : List Str) : List Str := stripLoopFuel t.length t

/-- Number of removal iterations the `strip_suffix` loop performs. -/
def stripSteps (t : List Str) : Nat := stripStepsFuel t.length t

/-- `strip_suffix` from compare_market_cap_eu.py: run the loop, and if
it emptied the sequence return the original (`return t or original`). -/
def strip_suffix (tokens : List Str) : List Str :=
  let r := stripLoop tokens
  if r = [] then tokens else r

/-- `norm_str` from compare_market_cap_eu.py. -/
def norm_str (tokens : List Str) : Str :=
  joinSep (strL " ") (strip_suffix tokens)

/-- `compact_str` from compare_market_cap_eu.py. -/
def compact_str (tokens : List Str) : Str :=
  joinSep [] (strip_suffix tokens)

/-- Python `tok.isdigit()` for the token alphabet in play: non-empty
and all ASCII digits. -/
def isPyDigit (s : Str) : Bool :=
  !s.isEmpty && s.all (fun c => '0' ≤ c && c ≤ '9')

/-- `acronym` from compare_market_cap_eu.py: first character of each
non-empty, non-numeric, non-stopword token, in order, of the tokens
before suffix stripping. -/
def acronym (tokens : List Str) : Str :=
  tokens.foldl
    (fun out tok =>
      if tok.isEmpty || isPyDigit tok || STOPWORDS.contains tok then out
      else out ++ tok.take 1)
    []

/-- `symbol_base` from compare_market_cap_eu.py: strip, cut before the
first character matched by the regex class `[.:/\s]`, then cut before
the first hyphen.  Note: this version performs no uppercasing and no
final strip. -/
def symbol_base (s : Str) : Str :=
  let s1 := pyStrip s
  if s1 = [] then []
  else
    let s2 := s1.takeWhile (fun c => !(c = '.' || c = ':' || c = '/' || isPySpace c))
    s2.takeWhile (fun c => !(c = '-'))

/-- The reference index built by `load_existing_companies`: the
normalized-key set, the compact-key set and the inverted token index. -/
structure RefIdx where
  existing_norm : List Str
  existing_compact : List Str
  token_index : List (Str × List Str)
deriving DecidableEq

/-- Python `set.add`: duplicate-free list insertion. -/
def setAdd (s : List Str) (x : Str) : List Str :=
  if x ∈ s then s else s ++ [x]

/-- Python `token_index.setdefault(tok, set()).add(ns)` over an
association list with unique keys. -/
def tindexAdd : List (Str × List Str) → Str → Str → List (Str × List Str)
  | [], tok, ns => [(tok, [ns])]
  | (t, b) :: rest, tok, ns =>
    if t = tok then (t, setAdd b ns) :: rest
    else (t, b) :: tindexAdd rest tok ns

/-- Python `token_index.get(tok, set())`. -/
def tindexGet (ti : List (Str × List Str)) (tok : Str) : List Str :=
  match ti.find? (fun e => e.1 = tok) with
  | some e => e.2
  | none => []

/-- Python `tok in token_index`. -/
def tindexHas (ti : List (Str × List Str)) (tok : Str) : Bool :=
  (ti.find? (fun e => e.1 = tok)).isSome

/-- Processing of one reference record inside
`load_existing_companies`: a missing (`none`) or empty name is skipped
(the Python guard `if not name: continue`; non-dict rows are also
modelled as `none`), otherwise the record's keys and stripped tokens
are registered. -/
def loadStep (acc : RefIdx) (row : Option Str) : RefIdx :=
  match row with
  | none => acc
  | some name =>
    if name = [] then acc
    else
      let toks := clean_tokens name
      let ns := norm_str toks
      let cs := compact_str toks
      { existing_norm := setAdd acc.existing_norm ns,
        existing_compact := setAdd acc.existing_compact cs,
        token_index :=
          (strip_suffix toks).foldl (fun ti tok => tindexAdd ti tok ns)
            acc.token_index }

/-- `load_existing_companies` from compare_market_cap_eu.py, over the
reference dataset's name fields (`row.get("c")`). -/
def load_existing_companies (rows : List (Option Str)) : RefIdx :=
  rows.foldl loadStep { existing_norm := [], existing_compact := [], token_index := [] }

/-- Rule 2 of `row_exists` (the symbol/ticker base block), factored out
verbatim from the body of `row_exists`. -/
def symbolRule (symval : Str) (en ec : List Str) (ti : List (Str × List Str)) : Bool :=
  let sym := symbol_base symval
  if sym = [] then false
  else
    let sym_toks := clean_tokens sym
    if sym_toks = [] then false
    else
      if norm_str sym_toks ∈ en ∨ compact_str sym_toks ∈ ec then true
      else
        let ss := strip_suffix sym_toks
        decide (ss.length = 1) && tindexHas ti (ss.headD [])

/-- The candidate-union loop of rule 5, with the `> 5` early bail-out
(`break` in the source; the final `len(candidates) == 1` check is done
by the caller). -/
def collectCandidates (ti : List (Str × List Str)) : List Str → List Str → List Str
  | [], acc => acc
  | tk :: rest, acc =>
    let acc2 := (tindexGet ti tk).foldl setAdd acc
    if 5 < acc2.length then acc2 else collectCandidates ti rest acc2

/-- `row_exists` from compare_market_cap_eu.py: the ordered,
short-circuiting heuristic chain deciding whether a candidate row is
already present in the reference index. -/
def row_exists (row : Row) (en ec : List Str) (ti : List (Str × List Str)) : Bool :=
  let toks := clean_tokens (row NameF)
  let stripped := strip_suffix toks
  let ns := joinSep (strL " ") stripped
  let cs := joinSep [] stripped
  if ns ∈ en ∨ cs ∈ ec then true
  else if symbolRule (row SymF) en ec ti then true
  else if decide (stripped.length = 1) && tindexHas ti (stripped.headD []) then true
  else
    let acr := acronym toks
    if decide (3 ≤ acr.length) && (decide (acr ∈ en) || tindexHas ti acr) then true
    else
      let key_tokens := stripped.filter (fun tk =>
        decide (5 ≤ tk.length) && !GENERIC_TOKENS.contains tk && !STOPWORDS.contains tk)
      decide ((collectCandidates ti key_tokens []).length = 1)

/-- The `missing` selection of `main` in compare_market_cap_eu.py: the
candidate rows for which `row_exists` is false, in input order. -/
def missing_rows (rows : List Row) (en ec : List Str)
    (ti : List (Str × List Str)) : List Row :=
  rows.filter (fun r => !row_exists r en ec ti)

/-- A candidate record carrying just a name and a ticker field, as a
row function. -/
def mkRow (name sym : Str) : Row :=
  fun c => if c = NameF then name else if c = SymF then sym else []

end Compare

namespace Refresh

/-- `symbol_base` from refresh_market_cap_missing.py.  Unlike the
version in compare_market_cap_eu.py it searches the separators by kind
(first `.` anywhere, else first `:`, else `/`, else a literal space),
and it strips and uppercases its result. -/
def symbol_base (s : Str) : Str :=
  let s1 := pyStrip s
  if s1 = [] then []
  else
    let s2 :=
      if s1.contains '.' then s1.takeWhile (fun c => !(c = '.'))
      else if s1.contains ':' then s1.takeWhile (fun c => !(c = ':'))
      else if s1.contains '/' then s1.takeWhile (fun c => !(c = '/'))
      else if s1.contains ' ' then s1.takeWhile (fun c => !(c = ' '))
      else s1
    let s3 := if s2.contains '-' then s2.takeWhile (fun c => !(c = '-')) else s2
    (pyStrip s3).map pyUpper

/-- `norm_name` from refresh_market_cap_missing.py. -/
def norm_name (name : Str) : Str :=
  joinSep (strL " ") (Compare.strip_suffix (Compare.clean_tokens name))

/-- `row_key` from refresh_market_cap_missing.py: the annotation join
key (normalized name, symbol base). -/
def row_key (r : Row) : Str × Str := (norm_name (r NameF), symbol_base (r SymF))

/-- Rebuild a row function from a CSV header and one record's cell
values (`csv.DictReader` semantics: `dict(zip(fieldnames, cells))`,
missing cells and unknown columns read as empty; the reversed search
gives the last occurrence of a duplicated header its value, as a dict
built left to right would). -/
def rowOfCSV (fields vals : List Str) : Row :=
  fun c =>
    match (fields.zip vals).reverse.find? (fun p => p.1 = c) with
    | some p => p.2
    | none => []

/-- Python `out_row.update(anno)` for an association-list of column
updates. -/
def updateRow (r : Row) (al : List (Str × Str)) : Row :=
  fun c =>
    match al.find? (fun p => p.1 = c) with
    | some p => p.2
    | none => r c

/-- One annotation row's contribution to the annotation map of `main`
in refresh_market_cap_missing.py: rows whose key is `("", "")` are
skipped, the first row wins per key, and the stored value is the row's
cells at the annotation columns. -/
def annoStep (cols : List Str) (acc : List ((Str × Str) × List (Str × Str)))
    (r : Row) : List ((Str × Str) × List (Str × Str)) :=
  let k := row_key r
  if k = ([], []) then acc
  else if (acc.find? (fun e => e.1 = k)).isSome then acc
  else acc ++ [(k, cols.map (fun c => (c, r c)))]

/-- The annotation map of `main` in refresh_market_cap_missing.py. -/
def annoMap (cols : List Str) (rows : List Row) :
    List ((Str × Str) × List (Str × Str)) :=
  rows.foldl (annoStep cols) []

/-- Per-row processing of the refresh loop: annotations found for the
row's key are merged in (`out_row.update(anno)`); otherwise every
annotation column is defaulted to empty (`out_row.setdefault(col, "")`,
the annotation columns being absent from a base-CSV row). -/
def processRow (cols : List Str) (A : List ((Str × Str) × List (Str × Str)))
    (r : Row) : Row :=
  match A.find? (fun e => e.1 = row_key r) with
  | some e => updateRow r e.2
  | none => updateRow r (cols.map (fun c => (c, ([] : Str))))

/-- Append a column name if it is not already present (the
`if col not in out_fields: out_fields.append(col)` loop). -/
def addUnique (fs : List Str) (c : Str) : List Str :=
  if c ∈ fs then fs else fs ++ [c]

/-- The annotation-column test of `main`: a column of the previous
missing CSV counts as an annotation column when it is non-empty and not
one of the base market-cap columns (`c and c not in base_fields`). -/
def pcol (bf : List Str) (c : Str) : Bool :=
  !(c = []) && !(c ∈ bf)

/-- The in-memory core of `main` in refresh_market_cap_missing.py.
Inputs: base header and records of the market-cap CSV, header and
records of the previous missing/annotation CSV, and the reference
index; output: the written header and the written records (each record
projected on the output header, which is exactly what `csv.DictWriter`
with `extrasaction="ignore"` emits). -/
def refreshRun (bf : List Str) (mraw : List (List Str)) (af : List Str)
    (araw : List (List Str)) (en ec : List Str)
    (ti : List (Str × List Str)) : List Str × List (List Str) :=
  let market_rows := mraw.map (rowOfCSV bf)
  let anno_rows := araw.map (rowOfCSV af)
  let extra_cols := af.filter (pcol bf)
  let A := annoMap extra_cols anno_rows
  let refreshed :=
    (market_rows.filter (fun r => !Compare.row_exists r en ec ti)).map
      (processRow extra_cols A)
  let out_fields := extra_cols.foldl addUnique bf
  (out_fields, refreshed.map (fun r => out_fields.map r))

/-- Order-preserving deduplication of `cs` relative to already-seen
names `fs`; `foldl addUnique` appends exactly this list. -/
def dedupNotIn (fs : List Str) : List Str → List Str
  | [] => []
  | c :: cs =>
    if c ∈ fs then dedupNotIn fs cs else c :: dedupNotIn (fs ++ [c]) cs

/-- The annotation value a key and column resolve to (empty when the
key is absent or the column is not stored). -/
def annoValue (A : List ((Str × Str) × List (Str × Str))) (k : Str × Str)
    (c : Str) : Str :=
  match A.find? (fun e => e.1 = k) with
  | some e =>
    match e.2.find? (fun q => q.1 = c) with
    | some q => q.2
    | none => []
  | none => []

end Refresh

/-- Reference dataset of claim C1: two reference names sharing the
stripped token "capital". -/
def refsC1 : List (Option Str) :=
  [some (strL "Alpha Capital"), some (strL "Beta Capital")]

/-- Reference index of claim C1. -/
def idxC1 : Compare.RefIdx := Compare.load_existing_companies refsC1

/-- Reference dataset of claim C2: only the long Spanish bank name. -/
def refsC2 : List (Option Str) :=
  [some (strL "Banco Bilbao Vizcaya Argentaria")]

/-- Reference index of claim C2. -/
def idxC2 : Compare.RefIdx := Compare.load_existing_companies refsC2

/-- Reference dataset of claim C4's counterexample. -/
def refsC4 : List (Option Str) := [some (strL "Banco")]

/-- Reference index of claim C4's counterexample. -/
def idxC4 : Compare.RefIdx := Compare.load_existing_companies refsC4

/-- The truncation pipeline exactly as the spec words it for
SymbolBase, before the final uppercase-and-trim: trim, split at the
first occurrence of any of `.`, `:`, `/` or whitespace keeping the left
part, split that at `-` keeping the left part.  Expressed with an index
search so that agreement with the source's `takeWhile` form is a
theorem, not a restatement. -/
def specTruncate (s : Str) : Str :=
  let t := pyStrip s
  if t = [] then []
  else
    let u := t.take (t.findIdx (fun c => c = '.' || c = ':' || c = '/' || isPySpace c))
    u.take (u.findIdx (fun c => c = '-'))

/-- The full SymbolBase pipeline as the spec words it, including the
final "uppercase and trim the result". -/
def specSymbolBase (s : Str) : Str :=
  (pyStrip (specTruncate s)).map pyUpper

namespace Compare

/-- Case analysis on a firing of the `strip_suffix` loop body. -/
theorem stripOnce_cases {t t2 : List Str} (h : stripOnce t = some t2) :
    (∃ pat, pat ∈ SUFFIX_PATTERNS ∧ tailIs t pat = true ∧
      t2 = t.take (t.length - pat.length)) ∨
    (t ≠ [] ∧ t2 = t.dropLast) := by
  unfold stripOnce at h
  split at h
  · rename_i pat heq
    cases h
    exact Or.inl ⟨pat, List.mem_of_find?_eq_some heq, List.find?_some heq, rfl⟩
  · split at h
    · rename_i lst heq2
      split at h
      · cases h
        refine Or.inr ⟨fun he => ?_, rfl⟩
        subst he; simp at heq2
      · cases h
    · cases h

theorem stripOnce_length_lt {t t2 : List Str} (h : stripOnce t = some t2) :
    t2.length < t.length := by
  rcases stripOnce_cases h with ⟨pat, hmem, hp, rfl⟩ | ⟨hne, rfl⟩
  · have hlen : pat.length ≤ t.length := by
      have := (Bool.and_eq_true _ _).mp hp
      exact of_decide_eq_true this.1
    have hpos : 0 < pat.length := by
      simp [SUFFIX_PATTERNS, strL] at hmem
      rcases hmem with rfl | rfl | rfl | rfl <;> decide
    rw [List.length_take]
    omega
  · have : 0 < t.length := List.length_pos.mpr hne
    rw [List.length_dropLast]
    omega

theorem stripLoopFuel_nil (n : Nat) : stripLoopFuel n [] = [] := by
  cases n <;> rfl

/-- Any fuel of at least the input length gives the same result: the
loop has already reached its fixed point. -/
theorem stripLoopFuel_congr :
    ∀ n m (t : List Str), t.length ≤ n → n ≤ m →
      stripLoopFuel m t = stripLoopFuel n t := by
  intro n
  induction n with
  | zero =>
    intro m t h1 _
    have : t = [] := List.eq_nil_of_length_eq_zero (Nat.le_zero.mp h1)
    subst this
    rw [stripLoopFuel_nil, stripLoopFuel_nil]
  | succ n ih =>
    intro m t h1 h2
    obtain ⟨m2, rfl⟩ : ∃ m2, m = m2 + 1 := ⟨m - 1, by omega⟩
    cases hs : stripOnce t with
    | none => simp only [stripLoopFuel, hs]
    | some t2 =>
      have hlt := stripOnce_length_lt hs
      simp only [stripLoopFuel, hs]
      exact ih m2 t2 (by omega) (by omega)

theorem stripStepsFuel_nil (n : Nat) : stripStepsFuel n [] = 0 := by
  cases n <;> rfl

/-- The iteration count is likewise independent of any sufficient
fuel: the unbounded loop performs exactly `stripSteps t` iterations. -/
theorem stripStepsFuel_congr :
    ∀ n m (t : List Str), t.length ≤ n → n ≤ m →
      stripStepsFuel m t = stripStepsFuel n t := by
  intro n
  induction n with
  | zero =>
    intro m t h1 _
    have : t = [] := List.eq_nil_of_length_eq_zero (Nat.le_zero.mp h1)
    subst this
    rw [stripStepsFuel_nil, stripStepsFuel_nil]
  | succ n ih =>
    intro m t h1 h2
    obtain ⟨m2, rfl⟩ : ∃ m2, m = m2 + 1 := ⟨m - 1, by omega⟩
    cases hs : stripOnce t with
    | none => simp only [stripStepsFuel, hs]
    | some t2 =>
      have hlt := stripOnce_length_lt hs
      simp only [stripStepsFuel, hs]
      rw [ih m2 t2 (by omega) (by omega)]

theorem stripLoop_of_none {t : List Str} (h : stripOnce t = none) :
    stripLoop t = t := by
  unfold stripLoop
  cases hl : t.length with
  | zero => rfl
  | succ k => simp only [stripLoopFuel, h]

theorem stripLoop_of_some {t t2 : List Str} (h : stripOnce t = some t2) :
    stripLoop t = stripLoop t2 := by
  unfold stripLoop
  have hlt := stripOnce_length_lt h
  obtain ⟨k, hk⟩ : ∃ k, t.length = k + 1 := ⟨t.length - 1, by omega⟩
  rw [hk]
  simp only [stripLoopFuel, h]
  exact stripLoopFuel_congr t2.length k t2 le_rfl (by omega)

theorem stripSteps_of_none {t : List Str} (h : stripOnce t = none) :
    stripSteps t = 0 := by
  unfold stripSteps
  cases hl : t.length with
  | zero => rfl
  | succ k => simp only [stripStepsFuel, h]

theorem stripSteps_of_some {t t2 : List Str} (h : stripOnce t = some t2) :
    stripSteps t = stripSteps t2 + 1 := by
  unfold stripSteps
  have hlt := stripOnce_length_lt h
  obtain ⟨k, hk⟩ : ∃ k, t.length = k + 1 := ⟨t.length - 1, by omega⟩
  rw [hk]
  simp only [stripStepsFuel, h]
  rw [stripStepsFuel_congr t2.length k t2 le_rfl (by omega)]

/-- The loop result is either empty or a true fixed point of the body. -/
theorem stripLoop_stable (t : List Str) :
    stripLoop t = [] ∨ stripOnce (stripLoop t) = none := by
  have H : ∀ n (t : List Str), t.length ≤ n →
      stripLoop t = [] ∨ stripOnce (stripLoop t) = none := by
    intro n
    induction n with
    | zero =>
      intro t ht
      have : t = [] := List.eq_nil_of_length_eq_zero (Nat.le_zero.mp ht)
      subst this
      exact Or.inl (stripLoopFuel_nil _)
    | succ n ih =>
      intro t ht
      cases h : stripOnce t with
      | none => rw [stripLoop_of_none h]; exact Or.inr h
      | some t2 =>
        rw [stripLoop_of_some h]
        exact ih t2 (by have := stripOnce_length_lt h; omega)
  exact H t.length t le_rfl

theorem stripSteps_le_length (t : List Str) : stripSteps t ≤ t.length := by
  have H : ∀ n (t : List Str), t.length ≤ n → stripSteps t ≤ t.length := by
    intro n
    induction n with
    | zero =>
      intro t ht
      have : t = [] := List.eq_nil_of_length_eq_zero (Nat.le_zero.mp ht)
      subst this
      rw [stripSteps_of_none (by decide)]
      exact Nat.zero_le _
    | succ n ih =>
      intro t ht
      cases h : stripOnce t with
      | none => rw [stripSteps_of_none h]; exact Nat.zero_le _
      | some t2 =>
        rw [stripSteps_of_some h]
        have hlt := stripOnce_length_lt h
        have := ih t2 (by omega)
        omega
  exact H t.length t le_rfl

/-- Elements of the loop result come from the input list. -/
theorem mem_of_mem_stripLoop {t : List Str} {x : Str}
    (h : x ∈ stripLoop t) : x ∈ t := by
  have H : ∀ n (t : List Str), x ∈ stripLoopFuel n t → x ∈ t := by
    intro n
    induction n with
    | zero => intro t hx; exact hx
    | succ n ih =>
      intro t hx
      cases hs : stripOnce t with
      | none => simpa only [stripLoopFuel, hs] using hx
      | some t2 =>
        simp only [stripLoopFuel, hs] at hx
        have hx2 : x ∈ t2 := ih t2 hx
        rcases stripOnce_cases hs with ⟨pat, _, _, rfl⟩ | ⟨_, rfl⟩
        · exact (List.take_sublist _ _).mem hx2
        · exact (List.dropLast_sublist t).mem hx2
  exact H t.length t h

theorem mem_of_mem_strip_suffix {t : List Str} {x : Str}
    (h : x ∈ strip_suffix t) : x ∈ t := by
  unfold strip_suffix at h
  by_cases hr : stripLoop t = []
  · simpa [hr] using h
  · rw [if_neg hr] at h
    exact mem_of_mem_stripLoop h

/-- Helper for claims C4, C7 and C9: stripping never empties a
non-empty token sequence. -/
theorem strip_suffix_ne_nil {t : List Str} (h : t ≠ []) :
    strip_suffix t ≠ [] := by
  unfold strip_suffix
  by_cases hr : stripLoop t = []
  · simpa [hr] using h
  · simp [hr]

/-- C6. Suffix stripping is idempotent: applying `strip_suffix` to its
own output returns that output unchanged, for every token sequence. -/
theorem strip_suffix_idempotent (t : List Str) :
    strip_suffix (strip_suffix t) = strip_suffix t := by
  unfold strip_suffix
  by_cases hr : stripLoop t = []
  · simp [hr]
  · rw [if_neg hr]
    rcases stripLoop_stable t with h | h
    · exact absurd h hr
    · rw [stripLoop_of_none h, if_neg hr]

/-- C7. For every non-empty token sequence, `strip_suffix` returns a
non-empty sequence; if full stripping would leave nothing the original
sequence is returned instead. -/
theorem strip_suffix_nonempty (t : List Str) (h : t ≠ []) :
    strip_suffix t ≠ [] ∧ (stripLoop t = [] → strip_suffix t = t) := by
  refine ⟨strip_suffix_ne_nil h, fun he => ?_⟩
  unfold strip_suffix
  simp [he]

/-- Witness for C7 at the suffix-only name ["holding"], which the loop
strips to nothing and which is therefore returned unchanged. -/
theorem strip_suffix_nonempty_witness :
    strip_suffix [strL "holding"] ≠ [] ∧
      (stripLoop [strL "holding"] = [] →
        strip_suffix [strL "holding"] = [strL "holding"]) :=
  strip_suffix_nonempty [strL "holding"] (by decide)

/-- C8. The `strip_suffix` loop terminates on every token sequence: the
number of removal iterations is bounded by the length of the input, and
enlarging the iteration budget beyond the input length changes neither
the result nor the iteration count — the loop has already reached its
fixed point within `t.length` iterations. -/
theorem strip_suffix_terminates (t : List Str) :
    stripSteps t ≤ t.length ∧
      ∀ m, t.length ≤ m →
        stripLoopFuel m t = stripLoop t ∧ stripStepsFuel m t = stripSteps t :=
  ⟨stripSteps_le_length t, fun m hm =>
    ⟨stripLoopFuel_congr t.length m t le_rfl hm,
     stripStepsFuel_congr t.length m t le_rfl hm⟩⟩

/-- Witness for C8 on a concrete adversarial suffix-only-tail input. -/
theorem strip_suffix_terminates_witness :
    stripSteps [strL "foo", strL "s", strL "p", strL "a"] ≤
        ([strL "foo", strL "s", strL "p", strL "a"] : List Str).length ∧
      ([strL "foo", strL "s", strL "p", strL "a"] : List Str).length ≤ 9 ∧
      stripLoopFuel 9 [strL "foo", strL "s", strL "p", strL "a"] =
          stripLoop [strL "foo", strL "s", strL "p", strL "a"] ∧
      stripStepsFuel 9 [strL "foo", strL "s", strL "p", strL "a"] =
          stripSteps [strL "foo", strL "s", strL "p", strL "a"] :=
  ⟨(strip_suffix_terminates [strL "foo", strL "s", strL "p", strL "a"]).1,
   by decide,
   ((strip_suffix_terminates [strL "foo", strL "s", strL "p", strL "a"]).2 9 (by decide)).1,
   ((strip_suffix_terminates [strL "foo", strL "s", strL "p", strL "a"]).2 9 (by decide)).2⟩

end Compare

namespace Compare

theorem mkRow_name (n s : Str) : mkRow n s NameF = n := rfl

theorem mkRow_sym (n s : Str) : mkRow n s SymF = s := rfl

theorem mem_setAdd_self (s : List Str) (x : Str) : x ∈ setAdd s x := by
  unfold setAdd
  by_cases h : x ∈ s
  · simp [h]
  · simp [h]

theorem mem_setAdd_of_mem {s : List Str} {x : Str} (y : Str) (h : x ∈ s) :
    x ∈ setAdd s y := by
  unfold setAdd
  by_cases hy : y ∈ s
  · simpa [hy]
  · simp [hy, List.mem_append, h]

theorem eq_or_mem_of_mem_setAdd {s : List Str} {x y : Str}
    (h : x ∈ setAdd s y) : x ∈ s ∨ x = y := by
  unfold setAdd at h
  by_cases hy : y ∈ s
  · rw [if_pos hy] at h
    exact Or.inl h
  · rw [if_neg hy] at h
    rcases List.mem_append.mp h with h2 | h2
    · exact Or.inl h2
    · exact Or.inr (List.mem_singleton.mp h2)

theorem tindexGet_tindexAdd_self (ti : List (Str × List Str)) (tok ns : Str) :
    ns ∈ tindexGet (tindexAdd ti tok ns) tok := by
  induction ti with
  | nil => simp [tindexAdd, tindexGet, List.find?, mem_setAdd_self]
  | cons e rest ih =>
    obtain ⟨t, b⟩ := e
    by_cases h : t = tok
    · subst h
      simp [tindexAdd, tindexGet, List.find?, mem_setAdd_self]
    · simp only [tindexAdd, if_neg h]
      simpa [tindexGet, List.find?, h] using ih

theorem tindexGet_tindexAdd_mono {ti : List (Str × List Str)} {tok x : Str}
    (tok2 ns : Str) (h : x ∈ tindexGet ti tok) :
    x ∈ tindexGet (tindexAdd ti tok2 ns) tok := by
  induction ti with
  | nil => simp [tindexGet, List.find?] at h
  | cons e rest ih =>
    obtain ⟨t, b⟩ := e
    unfold tindexAdd
    by_cases h2 : t = tok2
    · rw [if_pos h2]
      by_cases h3 : t = tok
      · subst h3
        have hb : x ∈ b := by simpa [tindexGet, List.find?] using h
        simpa [tindexGet, List.find?] using mem_setAdd_of_mem ns hb
      · have hr : x ∈ tindexGet rest tok := by
          simpa [tindexGet, List.find?, h3] using h
        simpa [tindexGet, List.find?, h3] using hr
    · rw [if_neg h2]
      by_cases h3 : t = tok
      · subst h3
        have hb : x ∈ b := by simpa [tindexGet, List.find?] using h
        simpa [tindexGet, List.find?] using hb
      · have hr : x ∈ tindexGet rest tok := by
          simpa [tindexGet, List.find?, h3] using h
        simpa [tindexGet, List.find?, h3] using ih hr

theorem tfold_mono {x tok : Str} (ns : Str) :
    ∀ (l : List Str) (ti : List (Str × List Str)),
      x ∈ tindexGet ti tok →
      x ∈ tindexGet (l.foldl (fun ti2 t => tindexAdd ti2 t ns) ti) tok := by
  intro l
  induction l with
  | nil => intro ti h; exact h
  | cons t rest ih =>
    intro ti h
    exact ih (tindexAdd ti t ns) (tindexGet_tindexAdd_mono t ns h)

theorem tfold_self {tok ns : Str} :
    ∀ (l : List Str) (ti : List (Str × List Str)), tok ∈ l →
      ns ∈ tindexGet (l.foldl (fun ti2 t => tindexAdd ti2 t ns) ti) tok := by
  intro l
  induction l with
  | nil => intro ti h; cases h
  | cons t rest ih =>
    intro ti h
    rcases List.mem_cons.mp h with rfl | h2
    · exact tfold_mono ns rest _ (tindexGet_tindexAdd_self ti tok ns)
    · exact ih _ h2

theorem load_foldl_norm_mono {x : Str} :
    ∀ (rows : List (Option Str)) (acc : RefIdx), x ∈ acc.existing_norm →
      x ∈ (rows.foldl loadStep acc).existing_norm := by
  intro rows
  induction rows with
  | nil => intro acc h; exact h
  | cons r rows ih =>
    intro acc h
    apply ih
    cases r with
    | none => exact h
    | some n =>
      by_cases hn : n = []
      · simpa [loadStep, hn] using h
      · simpa [loadStep, hn] using mem_setAdd_of_mem _ h

theorem load_foldl_compact_mono {x : Str} :
    ∀ (rows : List (Option Str)) (acc : RefIdx), x ∈ acc.existing_compact →
      x ∈ (rows.foldl loadStep acc).existing_compact := by
  intro rows
  induction rows with
  | nil => intro acc h; exact h
  | cons r rows ih =>
    intro acc h
    apply ih
    cases r with
    | none => exact h
    | some n =>
      by_cases hn : n = []
      · simpa [loadStep, hn] using h
      · simpa [loadStep, hn] using mem_setAdd_of_mem _ h

theorem load_foldl_tindex_mono {x tok : Str} :
    ∀ (rows : List (Option Str)) (acc : RefIdx),
      x ∈ tindexGet acc.token_index tok →
      x ∈ tindexGet (rows.foldl loadStep acc).token_index tok := by
  intro rows
  induction rows with
  | nil => intro acc h; exact h
  | cons r rows ih =>
    intro acc h
    apply ih
    cases r with
    | none => exact h
    | some n =>
      by_cases hn : n = []
      · simpa [loadStep, hn] using h
      · simpa [loadStep, hn] using tfold_mono _ _ _ h

/-- Provenance of normalized keys: every member of the built
normalized-key set comes from a kept (non-blank) reference name. -/
theorem mem_norm_load {x : Str} :
    ∀ (rows : List (Option Str)) (acc : RefIdx),
      x ∈ (rows.foldl loadStep acc).existing_norm →
      x ∈ acc.existing_norm ∨
        ∃ n, some n ∈ rows ∧ n ≠ [] ∧ x = norm_str (clean_tokens n) := by
  intro rows
  induction rows with
  | nil => intro acc h; exact Or.inl h
  | cons r rows ih =>
    intro acc h
    rcases ih (loadStep acc r) h with h2 | ⟨n, hmem, hne, hx⟩
    · cases r with
      | none => exact Or.inl h2
      | some n =>
        by_cases hn : n = []
        · simp only [loadStep, if_pos hn] at h2
          exact Or.inl h2
        · simp only [loadStep, if_neg hn] at h2
          rcases eq_or_mem_of_mem_setAdd h2 with h3 | h3
          · exact Or.inl h3
          · exact Or.inr ⟨n, List.mem_cons_self _ _, hn, h3⟩
    · exact Or.inr ⟨n, List.mem_cons_of_mem _ hmem, hne, hx⟩

/-- Provenance of compact keys. -/
theorem mem_compact_load {x : Str} :
    ∀ (rows : List (Option Str)) (acc : RefIdx),
      x ∈ (rows.foldl loadStep acc).existing_compact →
      x ∈ acc.existing_compact ∨
        ∃ n, some n ∈ rows ∧ n ≠ [] ∧ x = compact_str (clean_tokens n) := by
  intro rows
  induction rows with
  | nil => intro acc h; exact Or.inl h
  | cons r rows ih =>
    intro acc h
    rcases ih (loadStep acc r) h with h2 | ⟨n, hmem, hne, hx⟩
    · cases r with
      | none => exact Or.inl h2
      | some n =>
        by_cases hn : n = []
        · simp only [loadStep, if_pos hn] at h2
          exact Or.inl h2
        · simp only [loadStep, if_neg hn] at h2
          rcases eq_or_mem_of_mem_setAdd h2 with h3 | h3
          · exact Or.inl h3
          · exact Or.inr ⟨n, List.mem_cons_self _ _, hn, h3⟩
    · exact Or.inr ⟨n, List.mem_cons_of_mem _ hmem, hne, hx⟩

/-- Every kept reference record's keys and stripped tokens are
registered in the built index. -/
theorem load_inserts {n : Str} :
    ∀ (rows : List (Option Str)) (acc : RefIdx), some n ∈ rows → n ≠ [] →
      norm_str (clean_tokens n) ∈ (rows.foldl loadStep acc).existing_norm ∧
      compact_str (clean_tokens n) ∈ (rows.foldl loadStep acc).existing_compact ∧
      ∀ tok ∈ strip_suffix (clean_tokens n),
        norm_str (clean_tokens n) ∈
          tindexGet (rows.foldl loadStep acc).token_index tok := by
  intro rows
  induction rows with
  | nil => intro acc h; cases h
  | cons r rows ih =>
    intro acc hmem hne
    rcases List.mem_cons.mp hmem with heq | h2
    · subst heq
      simp only [List.foldl_cons]
      refine ⟨?_, ?_, ?_⟩
      · apply load_foldl_norm_mono
        simp only [loadStep, if_neg hne]
        exact mem_setAdd_self _ _
      · apply load_foldl_compact_mono
        simp only [loadStep, if_neg hne]
        exact mem_setAdd_self _ _
      · intro tok htok
        apply load_foldl_tindex_mono
        simp only [loadStep, if_neg hne]
        exact tfold_self _ _ htok
    · exact ih (loadStep acc r) h2 hne

/-- Skipped rows leave the fold unchanged, hence building from the
filtered list is the same computation. -/
theorem load_filter_aux :
    ∀ (rows : List (Option Str)) (acc : RefIdx),
      rows.foldl loadStep acc =
        (rows.filter (fun r => !(r.getD []).isEmpty)).foldl loadStep acc := by
  intro rows
  induction rows with
  | nil => intro acc; rfl
  | cons r rows ih =>
    intro acc
    cases r with
    | none => exact ih acc
    | some n =>
      cases n with
      | nil => exact ih acc
      | cons c cs => exact ih (loadStep acc (some (c :: cs)))

/-- C9. `load_existing_companies` skips every reference record whose
name is missing or blank — building the index from the dataset equals
building it from the dataset with those records filtered out — and it
indexes every other record: its normalized key, its compact key, and
all of its stripped tokens in the inverted index. -/
theorem load_skips_blank_names (rows : List (Option Str)) :
    load_existing_companies rows =
      load_existing_companies (rows.filter (fun r => !(r.getD []).isEmpty)) ∧
    ∀ n, some n ∈ rows → n ≠ [] →
      norm_str (clean_tokens n) ∈ (load_existing_companies rows).existing_norm ∧
      compact_str (clean_tokens n) ∈
        (load_existing_companies rows).existing_compact ∧
      ∀ tok ∈ strip_suffix (clean_tokens n),
        norm_str (clean_tokens n) ∈
          tindexGet (load_existing_companies rows).token_index tok :=
  ⟨load_filter_aux rows _,
   fun _ hmem hne => load_inserts rows _ hmem hne⟩

/-- Witness for C9: a dataset with a kept record, a missing name and a
blank name; the blank and missing records are skipped and the kept
record is fully indexed. -/
theorem load_skips_blank_names_witness :
    load_existing_companies [some (strL "Banco Santander"), none, some []] =
      load_existing_companies
        (([some (strL "Banco Santander"), none, some []] :
          List (Option Str)).filter (fun r => !(r.getD []).isEmpty)) ∧
    norm_str (clean_tokens (strL "Banco Santander")) ∈
      (load_existing_companies
        [some (strL "Banco Santander"), none, some []]).existing_norm ∧
    compact_str (clean_tokens (strL "Banco Santander")) ∈
      (load_existing_companies
        [some (strL "Banco Santander"), none, some []]).existing_compact ∧
    ∀ tok ∈ strip_suffix (clean_tokens (strL "Banco Santander")),
      norm_str (clean_tokens (strL "Banco Santander")) ∈
        tindexGet (load_existing_companies
          [some (strL "Banco Santander"), none, some []]).token_index tok :=
  ⟨(load_skips_blank_names [some (strL "Banco Santander"), none, some []]).1,
   (load_skips_blank_names [some (strL "Banco Santander"), none, some []]).2
     (strL "Banco Santander") (by decide) (by decide)⟩

end Compare

namespace Compare

/-- If the candidate's stripped tokens are a single token registered in
the inverted index, `row_exists` returns true (rule 3 fires unless an
earlier rule already returned true). -/
theorem row_exists_of_single_token {row : Row} {en ec : List Str}
    {ti : List (Str × List Str)} {tok : Str}
    (h : strip_suffix (clean_tokens (row NameF)) = [tok])
    (hti : tindexHas ti tok = true) :
    row_exists row en ec ti = true := by
  simp only [row_exists]
  simp only [h]
  simp [hti]

/-- If the candidate's acronym has length at least 3 and is a reference
normalized key, `row_exists` returns true (rule 4 fires unless an
earlier rule already returned true). -/
theorem row_exists_of_acronym {row : Row} {en ec : List Str}
    {ti : List (Str × List Str)}
    (h2 : 3 ≤ (acronym (clean_tokens (row NameF))).length)
    (h3 : acronym (clean_tokens (row NameF)) ∈ en) :
    row_exists row en ec ti = true := by
  simp only [row_exists]
  simp [h2, h3]

/-- C1 (counterexample).  With references "Alpha Capital" and
"Beta Capital" — two distinct reference names containing the stripped
token "capital" — a candidate named "Capital" (blank symbol), whose
name strips to exactly that single generic token, is decided as
matched, not unmatched: rule 3 (single-token containment) fires before
rule 5's generic-token guard is ever consulted. -/
theorem capital_claim_counterexample :
    strL "alpha capital" ∈ tindexGet idxC1.token_index (strL "capital") ∧
    strL "beta capital" ∈ tindexGet idxC1.token_index (strL "capital") ∧
    strL "alpha capital" ≠ strL "beta capital" ∧
    strip_suffix (clean_tokens (strL "Capital")) = [strL "capital"] ∧
    row_exists (mkRow (strL "Capital") []) idxC1.existing_norm
      idxC1.existing_compact idxC1.token_index = true := by
  decide

/-- C1 (amended).  Whenever the token "capital" is registered in the
inverted index (as it is when two or more reference names contain it),
a candidate whose name strips to exactly the single token "capital" is
decided matched by `decide()` — rule 3 carries no generic-token
exclusion, so rule 5's ambiguity guard never gets the chance to reject
the candidate. -/
theorem capital_single_token_matches (en ec : List Str)
    (ti : List (Str × List Str)) (name sym : Str)
    (h : strip_suffix (clean_tokens name) = [strL "capital"])
    (hti : tindexHas ti (strL "capital") = true) :
    row_exists (mkRow name sym) en ec ti = true := by
  refine row_exists_of_single_token ?_ hti
  rw [mkRow_name]
  exact h

/-- Witness for the amended C1 at candidate "Capital" and an index in
which "capital" is registered. -/
theorem capital_single_token_matches_witness :
    strip_suffix (clean_tokens (strL "Capital")) = [strL "capital"] ∧
    tindexHas [(strL "capital", [strL "alpha capital"])] (strL "capital") = true ∧
    row_exists (mkRow (strL "Capital") []) [] []
      [(strL "capital", [strL "alpha capital"])] = true :=
  ⟨by decide, by decide,
   capital_single_token_matches [] [] [(strL "capital", [strL "alpha capital"])]
     (strL "Capital") [] (by decide) (by decide)⟩

/-- C2 (counterexample).  With the single reference
"Banco Bilbao Vizcaya Argentaria", the candidate record named "BBVA"
carrying ticker "BBVA.MC" is decided unmatched: the acronym rule
compares the candidate's own acronym ("b") against the reference keys,
never the reference's acronym against the candidate. -/
theorem bbva_ticker_claim_counterexample :
    idxC2.existing_norm = [strL "banco bilbao vizcaya argentaria"] ∧
    acronym (clean_tokens (strL "Banco Bilbao Vizcaya Argentaria")) = strL "bbva" ∧
    row_exists (mkRow (strL "BBVA") (strL "BBVA.MC")) idxC2.existing_norm
      idxC2.existing_compact idxC2.token_index = false := by
  decide

/-- C2 (amended).  The acronym rule works in the opposite direction:
a candidate named "Banco Bilbao Vizcaya Argentaria" (any ticker) is
decided matched by rule 4 whenever "bbva" is a reference normalized
key. -/
theorem bbva_acronym_reversed (en ec : List Str)
    (ti : List (Str × List Str)) (sym : Str) (h : strL "bbva" ∈ en) :
    row_exists (mkRow (strL "Banco Bilbao Vizcaya Argentaria") sym)
      en ec ti = true := by
  refine row_exists_of_acronym ?_ ?_
  · rw [mkRow_name]
    decide
  · rw [mkRow_name]
    have e : acronym (clean_tokens (strL "Banco Bilbao Vizcaya Argentaria")) =
        strL "bbva" := by decide
    rw [e]
    exact h

/-- Witness for the amended C2 against the reference set with
normalized key "bbva". -/
theorem bbva_acronym_reversed_witness :
    strL "bbva" ∈ [strL "bbva"] ∧
    row_exists (mkRow (strL "Banco Bilbao Vizcaya Argentaria") [])
      [strL "bbva"] [] [] = true :=
  ⟨by decide, bbva_acronym_reversed [strL "bbva"] [] [] [] (by decide)⟩

theorem symbolRule_nil (en ec : List Str) (ti : List (Str × List Str)) :
    symbolRule [] en ec ti = false := rfl

theorem splitRuns_single (p : Char → Bool) (c : Char) :
    splitRuns p [c] = if p c then [[c]] else [] := rfl

theorem splitRuns_cons2 (p : Char → Bool) (c c2 : Char) (cs2 : Str) :
    splitRuns p (c :: c2 :: cs2) =
      if p c then
        (if p c2 then
          (match splitRuns p (c2 :: cs2) with
           | t :: ts => (c :: t) :: ts
           | [] => [[c]])
         else [c] :: splitRuns p (c2 :: cs2))
      else splitRuns p (c2 :: cs2) := rfl

/-- Every token produced by `splitRuns` is non-empty. -/
theorem splitRuns_ne_nil (p : Char → Bool) :
    ∀ s : Str, ∀ x ∈ splitRuns p s, x ≠ [] := by
  intro s
  induction s with
  | nil => intro x hx; simp [splitRuns] at hx
  | cons c cs ih =>
    intro x hx
    cases cs with
    | nil =>
      rw [splitRuns_single] at hx
      by_cases hc : p c = true
      · rw [if_pos hc] at hx
        simp at hx
        subst hx
        simp
      · rw [if_neg hc] at hx
        simp at hx
    | cons c2 cs2 =>
      rw [splitRuns_cons2] at hx
      by_cases hc : p c = true
      · rw [if_pos hc] at hx
        by_cases hc2 : p c2 = true
        · rw [if_pos hc2] at hx
          cases hr : splitRuns p (c2 :: cs2) with
          | nil =>
            rw [hr] at hx
            simp at hx
            subst hx
            simp
          | cons t ts =>
            rw [hr] at hx
            simp only [List.mem_cons] at hx
            rcases hx with rfl | hx2
            · simp
            · exact ih x (hr ▸ List.mem_cons_of_mem _ hx2)
        · rw [if_neg hc2] at hx
          rcases List.mem_cons.mp hx with rfl | hx2
          · simp
          · exact ih x hx2
      · rw [if_neg hc] at hx
        exact ih x hx

/-- Every token produced by `clean_tokens` is non-empty. -/
theorem clean_tokens_ne_nil (name : Str) :
    ∀ x ∈ clean_tokens name, x ≠ [] := by
  intro x hx
  exact splitRuns_ne_nil _ _ x hx

theorem joinSep_ne_nil {sep : Str} {l : List Str} (h1 : l ≠ [])
    (h2 : ∀ x ∈ l, x ≠ []) : joinSep sep l ≠ [] := by
  cases l with
  | nil => exact absurd rfl h1
  | cons x xs =>
    cases xs with
    | nil => simpa [joinSep] using h2 x (by simp)
    | cons y ys =>
      simp only [joinSep]
      intro he
      rcases List.append_eq_nil.mp he with ⟨he1, _⟩
      rcases List.append_eq_nil.mp he1 with ⟨he2, _⟩
      exact h2 x (by simp) he2

theorem norm_str_ne_nil_of {toks : List Str} (h1 : toks ≠ [])
    (h2 : ∀ x ∈ toks, x ≠ []) : norm_str toks ≠ [] := by
  unfold norm_str
  exact joinSep_ne_nil (strip_suffix_ne_nil h1)
    (fun x hx => h2 x (mem_of_mem_strip_suffix hx))

theorem compact_str_ne_nil_of {toks : List Str} (h1 : toks ≠ [])
    (h2 : ∀ x ∈ toks, x ≠ []) : compact_str toks ≠ [] := by
  unfold compact_str
  exact joinSep_ne_nil (strip_suffix_ne_nil h1)
    (fun x hx => h2 x (mem_of_mem_strip_suffix hx))

/-- Normalized-key provenance for the built index. -/
theorem mem_norm_load_ex {x : Str} {rows : List (Option Str)}
    (h : x ∈ (load_existing_companies rows).existing_norm) :
    ∃ n, some n ∈ rows ∧ n ≠ [] ∧ x = norm_str (clean_tokens n) := by
  rcases mem_norm_load rows _ h with h0 | h1
  · simp at h0
  · exact h1

/-- Compact-key provenance for the built index. -/
theorem mem_compact_load_ex {x : Str} {rows : List (Option Str)}
    (h : x ∈ (load_existing_companies rows).existing_compact) :
    ∃ n, some n ∈ rows ∧ n ≠ [] ∧ x = compact_str (clean_tokens n) := by
  rcases mem_compact_load rows _ h with h0 | h1
  · simp at h0
  · exact h1

/-- C4 (amended).  A candidate whose name normalizes to the empty token
sequence and whose symbol field is blank is decided unmatched and
appears in the unmatched output, provided every kept reference name
normalizes to a non-empty token sequence (otherwise the empty
normalized key would be in the reference sets and rule 1 would fire;
and a non-blank symbol could still fire rule 2, see the
counterexample). -/
theorem blank_name_unmatched (rows : List (Option Str)) (name : Str)
    (hname : clean_tokens name = [])
    (href : ∀ n, some n ∈ rows → n ≠ [] → clean_tokens n ≠ []) :
    row_exists (mkRow name [])
        (load_existing_companies rows).existing_norm
        (load_existing_companies rows).existing_compact
        (load_existing_companies rows).token_index = false ∧
      ∀ crows : List Row, mkRow name [] ∈ crows →
        mkRow name [] ∈ missing_rows crows
          (load_existing_companies rows).existing_norm
          (load_existing_companies rows).existing_compact
          (load_existing_companies rows).token_index := by
  have hen : ¬ (([] : Str) ∈ (load_existing_companies rows).existing_norm) := by
    intro hm
    rcases mem_norm_load_ex hm with ⟨n, hmem, hne, hx⟩
    exact norm_str_ne_nil_of (href n hmem hne) (clean_tokens_ne_nil n) hx.symm
  have hec : ¬ (([] : Str) ∈ (load_existing_companies rows).existing_compact) := by
    intro hm
    rcases mem_compact_load_ex hm with ⟨n, hmem, hne, hx⟩
    exact compact_str_ne_nil_of (href n hmem hne) (clean_tokens_ne_nil n) hx.symm
  have hfalse : row_exists (mkRow name [])
      (load_existing_companies rows).existing_norm
      (load_existing_companies rows).existing_compact
      (load_existing_companies rows).token_index = false := by
    simp only [row_exists, mkRow_name, mkRow_sym, hname]
    have e0 : strip_suffix ([] : List Str) = [] := rfl
    rw [e0]
    have hno : ¬ (joinSep (strL " ") ([] : List Str) ∈
          (load_existing_companies rows).existing_norm ∨
        joinSep [] ([] : List Str) ∈
          (load_existing_companies rows).existing_compact) := by
      rintro (hm | hm)
      · exact hen hm
      · exact hec hm
    rw [if_neg hno, symbolRule_nil]
    simp [acronym, collectCandidates]
  refine ⟨hfalse, fun crows hmem => ?_⟩
  exact List.mem_filter.mpr ⟨hmem, by simp [hfalse]⟩

/-- C4 (counterexample).  A candidate with a blank name does normalize
to the empty token sequence, yet it can still be decided matched — the
symbol rule does not look at the name: with reference "Banco" and
candidate ticker "BANCO.MC" the record is matched and is dropped from
the unmatched output. -/
theorem blank_name_claim_counterexample :
    clean_tokens [] = [] ∧
    row_exists (mkRow [] (strL "BANCO.MC")) idxC4.existing_norm
      idxC4.existing_compact idxC4.token_index = true ∧
    missing_rows [mkRow [] (strL "BANCO.MC")] idxC4.existing_norm
      idxC4.existing_compact idxC4.token_index = [] :=
  ⟨by decide, by decide, by rfl⟩

/-- Witness for the amended C4: blank name and blank symbol against the
reference set with the single name "Banco Santander". -/
theorem blank_name_unmatched_witness :
    row_exists (mkRow [] [])
        (load_existing_companies [some (strL "Banco Santander")]).existing_norm
        (load_existing_companies [some (strL "Banco Santander")]).existing_compact
        (load_existing_companies [some (strL "Banco Santander")]).token_index
        = false ∧
      mkRow [] [] ∈ missing_rows [mkRow [] []]
        (load_existing_companies [some (strL "Banco Santander")]).existing_norm
        (load_existing_companies [some (strL "Banco Santander")]).existing_compact
        (load_existing_companies [some (strL "Banco Santander")]).token_index := by
  have h := blank_name_unmatched [some (strL "Banco Santander")] [] (by decide)
    (by
      intro n hn hne
      have h2 : some n = some (strL "Banco Santander") := List.mem_singleton.mp hn
      injection h2 with h3
      subst h3
      decide)
  exact ⟨h.1, h.2 [mkRow [] []] (List.mem_singleton.mpr rfl)⟩

end Compare

theorem mem_iff_contains (ch : Char) (l : Str) : ch ∈ l ↔ l.contains ch = true := by
  simp

theorem takeWhile_not_eq_take_findIdx {p q : Char → Bool}
    (hpq : ∀ c, q c = !(p c)) :
    ∀ l : Str, l.takeWhile q = l.take (l.findIdx p) := by
  intro l
  induction l with
  | nil => rfl
  | cons c cs ih =>
    rw [List.takeWhile_cons, List.findIdx_cons]
    cases hp : p c with
    | true => simp [hpq c, hp]
    | false => simp [hpq c, hp, ih]

theorem takeWhile_congr2 {q r : Char → Bool} :
    ∀ l : Str, (∀ c ∈ l, q c = r c) → l.takeWhile q = l.takeWhile r := by
  intro l
  induction l with
  | nil => intro _; rfl
  | cons c cs ih =>
    intro h
    rw [List.takeWhile_cons, List.takeWhile_cons, h c (by simp)]
    cases hr : r c with
    | true =>
      rw [if_pos rfl, if_pos rfl]
      rw [ih (fun c2 hc2 => h c2 (List.mem_cons_of_mem _ hc2))]
    | false => rfl

theorem dropWhile_all_false {q : Char → Bool} {l : Str}
    (h : ∀ c ∈ l, q c = false) : l.dropWhile q = l := by
  cases l with
  | nil => rfl
  | cons c cs =>
    rw [List.dropWhile_cons, h c (by simp)]
    simp

theorem pyStrip_no_space {l : Str} (h : ∀ c ∈ l, isPySpace c = false) :
    pyStrip l = l := by
  unfold pyStrip
  rw [dropWhile_all_false h]
  rw [dropWhile_all_false (fun c hc => h c (List.mem_reverse.mp hc))]
  exact List.reverse_reverse l

/-- C5 (counterexample).  The SymbolBase of compare_market_cap_eu.py
does not uppercase its result: on "bbva.mc" it returns "bbva" while the
spec's pipeline (with the final uppercase-and-trim) returns "BBVA". -/
theorem symbol_base_not_uppercased :
    Compare.symbol_base (strL "bbva.mc") ≠ specSymbolBase (strL "bbva.mc") := by
  decide

/-- C5 (amended).  The compare implementation performs exactly the
spec's trim-and-truncate steps — trim, cut at the first occurrence of
any of `.`, `:`, `/` or whitespace, cut at the first `-` — but returns
that prefix as is, with no final uppercasing or trimming; an empty or
whitespace-only ticker yields an empty SymbolBase in both
implementations. -/
theorem symbol_base_spec_compare :
    (∀ s : Str, Compare.symbol_base s = specTruncate s) ∧
    (∀ s : Str, pyStrip s = [] →
      Compare.symbol_base s = [] ∧ Refresh.symbol_base s = []) := by
  constructor
  · intro s
    simp only [Compare.symbol_base, specTruncate]
    by_cases h : pyStrip s = []
    · simp [h]
    · rw [if_neg h, if_neg h]
      rw [takeWhile_not_eq_take_findIdx (fun c => rfl) (pyStrip s)]
      exact takeWhile_not_eq_take_findIdx (fun c => rfl) _
  · intro s h
    constructor
    · simp [Compare.symbol_base, h]
    · simp [Refresh.symbol_base, h]

/-- Witness for the amended C5 on a documented ticker format and on a
whitespace-only ticker. -/
theorem symbol_base_spec_compare_witness :
    Compare.symbol_base (strL "BBVA.MC") = specTruncate (strL "BBVA.MC") ∧
    pyStrip (strL " ") = [] ∧
    Compare.symbol_base (strL " ") = [] ∧
    Refresh.symbol_base (strL " ") = [] :=
  ⟨symbol_base_spec_compare.1 (strL "BBVA.MC"), by decide,
   (symbol_base_spec_compare.2 (strL " ") (by decide)).1,
   (symbol_base_spec_compare.2 (strL " ") (by decide)).2⟩

/-- C10 (counterexample).  The two `symbol_base` implementations
disagree: on "bbva" the compare version returns "bbva" while the
refresh version returns "BBVA". -/
theorem symbol_base_impls_differ :
    Compare.symbol_base (strL "bbva") ≠ Refresh.symbol_base (strL "bbva") := by
  decide

/-- C10 (amended).  The two implementations agree only up to
ASCII-uppercasing, and only on tickers whose trimmed form contains no
whitespace and at most one distinct separator among `.`, `:`, `/` (the
refresh version picks the separator by kind — first `.` anywhere, else
`:`, else `/`, else a literal space — where the compare version cuts at
the positionally first separator; the refresh version additionally
trims and uppercases).  This covers all the documented formats such as
BBVA.MC, RMS.PA, AIR:PA, VOW3.DE and RDS-A. -/
theorem refresh_symbol_base_agrees (s : Str)
    (hw : ∀ c ∈ pyStrip s, isPySpace c = false)
    (hdc : ¬((pyStrip s).contains '.' = true ∧ (pyStrip s).contains ':' = true))
    (hds : ¬((pyStrip s).contains '.' = true ∧ (pyStrip s).contains '/' = true))
    (hcs : ¬((pyStrip s).contains ':' = true ∧ (pyStrip s).contains '/' = true)) :
    Refresh.symbol_base s = (Compare.symbol_base s).map pyUpper := by
  simp only [Refresh.symbol_base, Compare.symbol_base]
  by_cases h0 : pyStrip s = []
  · simp [h0]
  · rw [if_neg h0, if_neg h0]
    have hA : ∀ sepP : Char → Bool, (∀ c ∈ pyStrip s,
          (!(sepP c) : Bool) = !(c = '.' || c = ':' || c = '/' || isPySpace c)) →
        (pyStrip s).takeWhile (fun c => !(sepP c)) =
          (pyStrip s).takeWhile
            (fun c => !(c = '.' || c = ':' || c = '/' || isPySpace c)) :=
      fun sepP he => takeWhile_congr2 (pyStrip s) he
    -- dispatch the refresh separator search
    have main : ∀ s2 : Str,
        s2 = (pyStrip s).takeWhile
          (fun c => !(c = '.' || c = ':' || c = '/' || isPySpace c)) →
        ((pyStrip (if s2.contains '-' = true
            then s2.takeWhile (fun c => !(c = '-')) else s2)).map pyUpper) =
          ((s2.takeWhile (fun c => !(c = '-'))).map pyUpper) := by
      intro s2 hs2
      have hsub : ∀ c ∈ s2, c ∈ pyStrip s := by
        intro c hc
        rw [hs2] at hc
        exact (List.takeWhile_sublist _).mem hc
      have hdashcase : (if s2.contains '-' = true
          then s2.takeWhile (fun c => !(c = '-')) else s2) =
          s2.takeWhile (fun c => !(c = '-')) := by
        by_cases hd : s2.contains '-' = true
        · rw [if_pos hd]
        · rw [if_neg hd]
          refine (List.takeWhile_eq_self_iff.mpr ?_).symm
          intro c hc
          have : ¬ c = '-' := by
            intro he
            subst he
            exact hd ((mem_iff_contains _ _).mp hc)
          simp [this]
      rw [hdashcase]
      rw [pyStrip_no_space]
      intro c hc
      exact hw c (hsub c ((List.takeWhile_sublist _).mem hc))
    by_cases hp : (pyStrip s).contains '.' = true
    · rw [if_pos hp]
      have hnc : ':' ∉ pyStrip s := by
        intro hm
        exact hdc ⟨hp, (mem_iff_contains _ _).mp hm⟩
      have hns : '/' ∉ pyStrip s := by
        intro hm
        exact hds ⟨hp, (mem_iff_contains _ _).mp hm⟩
      rw [hA (fun c => c = '.')
        (by
          intro c hc
          have e1 : (c = ':') = False := by
            simp only [eq_iff_iff, iff_false]
            intro he; subst he; exact hnc hc
          have e2 : (c = '/') = False := by
            simp only [eq_iff_iff, iff_false]
            intro he; subst he; exact hns hc
          simp [e1, e2, hw c hc])]
      exact main _ rfl
    · rw [if_neg hp]
      have hnp : '.' ∉ pyStrip s := fun hm => hp ((mem_iff_contains _ _).mp hm)
      by_cases hq : (pyStrip s).contains ':' = true
      · rw [if_pos hq]
        have hns : '/' ∉ pyStrip s := by
          intro hm
          exact hcs ⟨hq, (mem_iff_contains _ _).mp hm⟩
        rw [hA (fun c => c = ':')
          (by
            intro c hc
            have e1 : (c = '.') = False := by
              simp only [eq_iff_iff, iff_false]
              intro he; subst he; exact hnp hc
            have e2 : (c = '/') = False := by
              simp only [eq_iff_iff, iff_false]
              intro he; subst he; exact hns hc
            simp [e1, e2, hw c hc])]
        exact main _ rfl
      · rw [if_neg hq]
        have hnq : ':' ∉ pyStrip s := fun hm => hq ((mem_iff_contains _ _).mp hm)
        by_cases hr : (pyStrip s).contains '/' = true
        · rw [if_pos hr]
          rw [hA (fun c => c = '/')
            (by
              intro c hc
              have e1 : (c = '.') = False := by
                simp only [eq_iff_iff, iff_false]
                intro he; subst he; exact hnp hc
              have e2 : (c = ':') = False := by
                simp only [eq_iff_iff, iff_false]
                intro he; subst he; exact hnq hc
              simp [e1, e2, hw c hc])]
          exact main _ rfl
        · rw [if_neg hr]
          have hnr : '/' ∉ pyStrip s := fun hm => hr ((mem_iff_contains _ _).mp hm)
          have hsp : ¬ (pyStrip s).contains ' ' = true := by
            intro hm
            have : (' ' : Char) ∈ pyStrip s := (mem_iff_contains _ _).mpr hm
            have := hw ' ' this
            simp [isPySpace] at this
          rw [if_neg hsp]
          have hall : (pyStrip s).takeWhile
              (fun c => !(c = '.' || c = ':' || c = '/' || isPySpace c)) =
              pyStrip s := by
            refine List.takeWhile_eq_self_iff.mpr ?_
            intro c hc
            have e1 : (c = '.') = False := by
              simp only [eq_iff_iff, iff_false]
              intro he; subst he; exact hnp hc
            have e2 : (c = ':') = False := by
              simp only [eq_iff_iff, iff_false]
              intro he; subst he; exact hnq hc
            have e3 : (c = '/') = False := by
              simp only [eq_iff_iff, iff_false]
              intro he; subst he; exact hnr hc
            simp [e1, e2, e3, hw c hc]
          rw [hall]
          exact main (pyStrip s) hall.symm

/-- Witness for the amended C10 on the documented ticker "BBVA.MC". -/
theorem refresh_symbol_base_agrees_witness :
    (∀ c ∈ pyStrip (strL "BBVA.MC"), isPySpace c = false) ∧
    ¬((pyStrip (strL "BBVA.MC")).contains '.' = true ∧
        (pyStrip (strL "BBVA.MC")).contains ':' = true) ∧
    ¬((pyStrip (strL "BBVA.MC")).contains '.' = true ∧
        (pyStrip (strL "BBVA.MC")).contains '/' = true) ∧
    ¬((pyStrip (strL "BBVA.MC")).contains ':' = true ∧
        (pyStrip (strL "BBVA.MC")).contains '/' = true) ∧
    Refresh.symbol_base (strL "BBVA.MC") =
      (Compare.symbol_base (strL "BBVA.MC")).map pyUpper :=
  ⟨by decide, by decide, by decide, by decide,
   refresh_symbol_base_agrees (strL "BBVA.MC")
     (by decide) (by decide) (by decide) (by decide)⟩

namespace Refresh

theorem foldl_addUnique_eq :
    ∀ (cs fs : List Str), cs.foldl addUnique fs = fs ++ dedupNotIn fs cs := by
  intro cs
  induction cs with
  | nil => intro fs; simp [dedupNotIn]
  | cons c cs ih =>
    intro fs
    by_cases hc : c ∈ fs
    · simp only [List.foldl_cons, addUnique, if_pos hc, dedupNotIn]
      exact ih fs
    · simp only [List.foldl_cons, addUnique, if_neg hc, dedupNotIn]
      rw [ih (fs ++ [c])]
      simp

theorem mem_dedupNotIn :
    ∀ {cs fs : List Str} {x : Str}, x ∈ dedupNotIn fs cs → x ∈ cs ∧ ¬ x ∈ fs := by
  intro cs
  induction cs with
  | nil => intro fs x h; simp [dedupNotIn] at h
  | cons c cs ih =>
    intro fs x h
    simp only [dedupNotIn] at h
    by_cases hc : c ∈ fs
    · rw [if_pos hc] at h
      obtain ⟨h1, h2⟩ := ih h
      exact ⟨List.mem_cons_of_mem _ h1, h2⟩
    · rw [if_neg hc] at h
      rcases List.mem_cons.mp h with rfl | h2
      · exact ⟨List.mem_cons_self _ _, hc⟩
      · obtain ⟨h3, h4⟩ := ih h2
        refine ⟨List.mem_cons_of_mem _ h3, fun hm => h4 ?_⟩
        simp [hm]

theorem mem_dedupNotIn_of :
    ∀ {cs fs : List Str} {x : Str}, x ∈ cs → ¬ x ∈ fs → x ∈ dedupNotIn fs cs := by
  intro cs
  induction cs with
  | nil => intro fs x h; cases h
  | cons c cs ih =>
    intro fs x h hx
    simp only [dedupNotIn]
    by_cases hc : c ∈ fs
    · rw [if_pos hc]
      rcases List.mem_cons.mp h with rfl | h2
      · exact absurd hc hx
      · exact ih h2 hx
    · rw [if_neg hc]
      by_cases he : x = c
      · subst he
        exact List.mem_cons_self _ _
      · rcases List.mem_cons.mp h with rfl | h2
        · exact absurd rfl he
        · refine List.mem_cons_of_mem _ (ih h2 ?_)
          intro hm
          rcases List.mem_append.mp hm with hm2 | hm2
          · exact hx hm2
          · exact he (List.mem_singleton.mp hm2)

theorem dedupNotIn_nodup :
    ∀ (cs fs : List Str), (dedupNotIn fs cs).Nodup := by
  intro cs
  induction cs with
  | nil => intro fs; simp [dedupNotIn]
  | cons c cs ih =>
    intro fs
    simp only [dedupNotIn]
    by_cases hc : c ∈ fs
    · rw [if_pos hc]; exact ih fs
    · rw [if_neg hc]
      refine List.Nodup.cons ?_ (ih (fs ++ [c]))
      intro hm
      have := (mem_dedupNotIn hm).2
      simp at this

theorem dedupNotIn_eq_self :
    ∀ {cs fs : List Str}, cs.Nodup → (∀ x ∈ cs, ¬ x ∈ fs) →
      dedupNotIn fs cs = cs := by
  intro cs
  induction cs with
  | nil => intro fs _ _; rfl
  | cons c cs ih =>
    intro fs hnd hni
    simp only [dedupNotIn]
    rw [if_neg (hni c (List.mem_cons_self _ _))]
    congr 1
    refine ih (List.Nodup.of_cons hnd) ?_
    intro x hx hm
    rcases List.mem_append.mp hm with hm2 | hm2
    · exact hni x (List.mem_cons_of_mem _ hx) hm2
    · have : x = c := List.mem_singleton.mp hm2
      subst this
      exact (List.nodup_cons.mp hnd).1 hx

/-- The annotation columns recomputed from the first run's output
header are exactly the deduplicated annotation columns of the first
run. -/
theorem extra_cols_round (bf af : List Str) :
    ((af.filter (pcol bf)).foldl addUnique bf).filter (pcol bf) =
      dedupNotIn bf (af.filter (pcol bf)) := by
  rw [foldl_addUnique_eq, List.filter_append]
  have h1 : bf.filter (pcol bf) = [] := by
    rw [List.filter_eq_nil_iff]
    intro a ha
    simp [pcol, ha]
  have h2 : (dedupNotIn bf (af.filter (pcol bf))).filter (pcol bf) =
      dedupNotIn bf (af.filter (pcol bf)) := by
    rw [List.filter_eq_self]
    intro a ha
    exact List.of_mem_filter (mem_dedupNotIn ha).1
  rw [h1, h2]
  rfl

/-- The output header recomputed in the second run equals the first
run's output header. -/
theorem out_fields_round (bf af : List Str) :
    (dedupNotIn bf (af.filter (pcol bf))).foldl addUnique bf =
      (af.filter (pcol bf)).foldl addUnique bf := by
  rw [foldl_addUnique_eq, foldl_addUnique_eq]
  congr 1
  exact dedupNotIn_eq_self (dedupNotIn_nodup _ _)
    (fun x hx => (mem_dedupNotIn hx).2)

theorem rowOfCSV_not_mem {fields vals : List Str} {c : Str}
    (h : ¬ c ∈ fields) : rowOfCSV fields vals c = [] := by
  unfold rowOfCSV
  cases hf : (fields.zip vals).reverse.find? (fun p => p.1 = c) with
  | some p =>
    have hp : p.1 = c := by
      have h2 := List.find?_some hf
      simpa using h2
    have hm : p ∈ fields.zip vals :=
      List.mem_reverse.mp (List.mem_of_find?_eq_some hf)
    exact absurd (hp ▸ (List.of_mem_zip hm).1) h
  | none => rfl

theorem zip_map_pair {r : Row} :
    ∀ {fields : List Str} {q : Str × Str},
      q ∈ fields.zip (fields.map r) → q.2 = r q.1 := by
  intro fields
  induction fields with
  | nil => intro q h; cases h
  | cons f fs ih =>
    intro q h
    rcases List.mem_cons.mp h with rfl | h2
    · rfl
    · exact ih h2

theorem mem_zip_map {r : Row} :
    ∀ {fields : List Str} {c : Str}, c ∈ fields →
      (c, r c) ∈ fields.zip (fields.map r) := by
  intro fields
  induction fields with
  | nil => intro c h; cases h
  | cons f fs ih =>
    intro c h
    rcases List.mem_cons.mp h with rfl | h2
    · exact List.mem_cons_self _ _
    · exact List.mem_cons_of_mem _ (ih h2)

/-- Writing a row supported on the output header and reading it back
through the CSV interface reproduces the row. -/
theorem rowOfCSV_roundtrip {fields : List Str} {r : Row}
    (hsupp : ∀ c, ¬ c ∈ fields → r c = []) :
    rowOfCSV fields (fields.map r) = r := by
  funext c
  by_cases hc : c ∈ fields
  · unfold rowOfCSV
    cases hf : (fields.zip (fields.map r)).reverse.find? (fun p => p.1 = c) with
    | some p =>
      have hp : p.1 = c := by
        have h2 := List.find?_some hf
        simpa using h2
      have hm : p ∈ fields.zip (fields.map r) :=
        List.mem_reverse.mp (List.mem_of_find?_eq_some hf)
      calc p.2 = r p.1 := zip_map_pair hm
        _ = r c := by rw [hp]
    | none =>
      exfalso
      rw [List.find?_eq_none] at hf
      exact hf (c, r c) (List.mem_reverse.mpr (mem_zip_map hc)) (by simp)
  · rw [rowOfCSV_not_mem hc, hsupp c hc]

theorem market_row_supp {bf : List Str} {mraw : List (List Str)} {r : Row}
    (h : r ∈ mraw.map (rowOfCSV bf)) : ∀ c, ¬ c ∈ bf → r c = [] := by
  obtain ⟨v, _, rfl⟩ := List.mem_map.mp h
  exact fun c hc => rowOfCSV_not_mem hc

end Refresh

namespace Refresh

theorem annoStep_mem {cols : List Str}
    {acc : List ((Str × Str) × List (Str × Str))} {r : Row}
    {e : (Str × Str) × List (Str × Str)} (h : e ∈ annoStep cols acc r) :
    e ∈ acc ∨ (e.1 ≠ ([], []) ∧ row_key r = e.1 ∧
      e.2 = cols.map (fun c => (c, r c))) := by
  simp only [annoStep] at h
  by_cases h1 : row_key r = ([], [])
  · rw [if_pos h1] at h
    exact Or.inl h
  · rw [if_neg h1] at h
    by_cases h2 : (acc.find? (fun e2 => e2.1 = row_key r)).isSome = true
    · rw [if_pos h2] at h
      exact Or.inl h
    · rw [if_neg h2] at h
      rcases List.mem_append.mp h with h3 | h3
      · exact Or.inl h3
      · have he : e = (row_key r, cols.map (fun c => (c, r c))) :=
          List.mem_singleton.mp h3
        subst he
        exact Or.inr ⟨h1, rfl, rfl⟩

theorem annoMap_aux_mem {cols : List Str} :
    ∀ (rows : List Row) (acc : List ((Str × Str) × List (Str × Str)))
      (e : (Str × Str) × List (Str × Str)),
      e ∈ rows.foldl (annoStep cols) acc →
      e ∈ acc ∨ (e.1 ≠ ([], []) ∧ ∃ ra, ra ∈ rows ∧ row_key ra = e.1 ∧
        e.2 = cols.map (fun c => (c, ra c))) := by
  intro rows
  induction rows with
  | nil => intro acc e h; exact Or.inl h
  | cons r rows ih =>
    intro acc e h
    rcases ih (annoStep cols acc r) e h with h2 | ⟨hne, ra, hmem, hk, hv⟩
    · rcases annoStep_mem h2 with h3 | ⟨hne, hk, hv⟩
      · exact Or.inl h3
      · exact Or.inr ⟨hne, r, List.mem_cons_self _ _, hk, hv⟩
    · exact Or.inr ⟨hne, ra, List.mem_cons_of_mem _ hmem, hk, hv⟩

/-- Every entry of the annotation map carries a non-degenerate key, an
origin row with that key, and the origin row's annotation cells. -/
theorem annoMap_mem {cols : List Str} {rows : List Row}
    {e : (Str × Str) × List (Str × Str)} (h : e ∈ annoMap cols rows) :
    e.1 ≠ ([], []) ∧ ∃ ra, ra ∈ rows ∧ row_key ra = e.1 ∧
      e.2 = cols.map (fun c => (c, ra c)) := by
  rcases annoMap_aux_mem rows [] e h with h2 | h2
  · cases h2
  · exact h2

theorem annoStep_find_mono {cols : List Str}
    {acc : List ((Str × Str) × List (Str × Str))} {r : Row} {k : Str × Str}
    (h : (acc.find? (fun e => e.1 = k)).isSome = true) :
    ((annoStep cols acc r).find? (fun e => e.1 = k)).isSome = true := by
  simp only [annoStep]
  by_cases h1 : row_key r = ([], [])
  · rw [if_pos h1]; exact h
  · rw [if_neg h1]
    by_cases h2 : (acc.find? (fun e2 => e2.1 = row_key r)).isSome = true
    · rw [if_pos h2]; exact h
    · rw [if_neg h2]
      rw [List.find?_append]
      obtain ⟨e, he⟩ := Option.isSome_iff_exists.mp h
      rw [he]
      rfl

theorem annoMap_fold_find_mono {cols : List Str} {k : Str × Str} :
    ∀ (rows : List Row) (acc : List ((Str × Str) × List (Str × Str))),
      (acc.find? (fun e => e.1 = k)).isSome = true →
      ((rows.foldl (annoStep cols) acc).find? (fun e => e.1 = k)).isSome = true := by
  intro rows
  induction rows with
  | nil => intro acc h; exact h
  | cons r rows ih =>
    intro acc h
    exact ih _ (annoStep_find_mono h)

theorem annoMap_aux_find {cols : List Str} {rr : Row} :
    ∀ (rows : List Row) (acc : List ((Str × Str) × List (Str × Str))),
      rr ∈ rows → row_key rr ≠ ([], []) →
      ((rows.foldl (annoStep cols) acc).find?
        (fun e => e.1 = row_key rr)).isSome = true := by
  intro rows
  induction rows with
  | nil => intro acc h; cases h
  | cons r rows ih =>
    intro acc hmem hk
    rcases List.mem_cons.mp hmem with rfl | h2
    · rw [List.foldl_cons]
      apply annoMap_fold_find_mono
      simp only [annoStep]
      rw [if_neg hk]
      by_cases h2 : (acc.find? (fun e2 => e2.1 = row_key rr)).isSome = true
      · rw [if_pos h2]; exact h2
      · rw [if_neg h2]
        rw [List.find?_append]
        cases hf : acc.find? (fun e => e.1 = row_key rr) with
        | some e => rw [hf] at h2; simp at h2
        | none => simp [List.find?]
    · exact ih _ h2 hk

/-- A row with a non-degenerate key that occurs in the annotation
source guarantees a map entry for that key. -/
theorem annoMap_find_isSome {cols : List Str} {rows : List Row} {rr : Row}
    (h : rr ∈ rows) (hk : row_key rr ≠ ([], [])) :
    ((annoMap cols rows).find? (fun e => e.1 = row_key rr)).isSome = true :=
  annoMap_aux_find rows [] h hk

theorem find_map_pair_none {cols : List Str} {f : Str → Str} {c : Str}
    (h : ¬ c ∈ cols) :
    (cols.map (fun c2 => (c2, f c2))).find? (fun q => q.1 = c) = none := by
  rw [List.find?_eq_none]
  intro q hq
  obtain ⟨c2, hc2, rfl⟩ := List.mem_map.mp hq
  simp only [decide_eq_true_eq]
  intro he
  exact h (he ▸ hc2)

theorem find_map_pair_some {cols : List Str} {f : Str → Str} {c : Str} :
    c ∈ cols →
    (cols.map (fun c2 => (c2, f c2))).find? (fun q => q.1 = c) = some (c, f c) := by
  induction cols with
  | nil => intro h; cases h
  | cons c0 cols ih =>
    intro h
    by_cases he : c0 = c
    · subst he
      simp [List.find?_cons]
    · rcases List.mem_cons.mp h with rfl | h2
      · exact absurd rfl he
      · simp only [List.map_cons, List.find?_cons]
        rw [show (decide ((c0, f c0).1 = c)) = false by simp [he]]
        exact ih h2

theorem processRow_not_mem {cols : List Str}
    {A : List ((Str × Str) × List (Str × Str))} {r : Row} {c : Str}
    (hA : ∀ e ∈ A, ∃ f : Row, e.2 = cols.map (fun c2 => (c2, f c2)))
    (hc : ¬ c ∈ cols) : processRow cols A r c = r c := by
  unfold processRow
  cases hf : A.find? (fun e => e.1 = row_key r) with
  | some e =>
    obtain ⟨f, hv⟩ := hA e (List.mem_of_find?_eq_some hf)
    show updateRow r e.2 c = r c
    unfold updateRow
    rw [hv, find_map_pair_none hc]
  | none =>
    show updateRow r (cols.map (fun c2 => (c2, ([] : Str)))) c = r c
    unfold updateRow
    rw [find_map_pair_none hc]

theorem processRow_mem {cols : List Str}
    {A : List ((Str × Str) × List (Str × Str))} {r : Row} {c : Str}
    (hA : ∀ e ∈ A, ∃ f : Row, e.2 = cols.map (fun c2 => (c2, f c2)))
    (hc : c ∈ cols) :
    processRow cols A r c = annoValue A (row_key r) c := by
  unfold processRow annoValue
  cases hf : A.find? (fun e => e.1 = row_key r) with
  | some e =>
    obtain ⟨f, hv⟩ := hA e (List.mem_of_find?_eq_some hf)
    show updateRow r e.2 c =
      (match e.2.find? (fun q => q.1 = c) with
        | some q => q.2
        | none => ([] : Str))
    unfold updateRow
    rw [hv, find_map_pair_some hc]
  | none =>
    show updateRow r (cols.map (fun c2 => (c2, ([] : Str)))) c = ([] : Str)
    unfold updateRow
    rw [find_map_pair_some hc]

/-- Carrying annotations over does not change a row's join key: either
the key fields are not annotation columns and keep their values, or
they are and the injected values come from an annotation row with the
very same key (or are blank defaults for a row whose key fields were
already blank). -/
theorem processRow_key {cols : List Str}
    {A : List ((Str × Str) × List (Str × Str))} {r : Row}
    (hA : ∀ e ∈ A, e.1 ≠ ([], []) ∧ ∃ ra : Row, row_key ra = e.1 ∧
        e.2 = cols.map (fun c2 => (c2, ra c2)))
    (hsupp : ∀ c ∈ cols, r c = []) :
    row_key (processRow cols A r) = row_key r := by
  have hA2 : ∀ e ∈ A, ∃ f : Row, e.2 = cols.map (fun c2 => (c2, f c2)) := by
    intro e he
    obtain ⟨_, ra, _, hv⟩ := hA e he
    exact ⟨ra, hv⟩
  show (norm_name (processRow cols A r NameF),
      symbol_base (processRow cols A r SymF)) =
    (norm_name (r NameF), symbol_base (r SymF))
  have hname : norm_name (processRow cols A r NameF) = norm_name (r NameF) := by
    by_cases hN : NameF ∈ cols
    · rw [processRow_mem hA2 hN]
      unfold annoValue
      cases hf : A.find? (fun e => e.1 = row_key r) with
      | some e =>
        obtain ⟨hne, ra, hk, hv⟩ := hA e (List.mem_of_find?_eq_some hf)
        show norm_name (match e.2.find? (fun q => q.1 = NameF) with
            | some q => q.2
            | none => ([] : Str)) = norm_name (r NameF)
        rw [hv, find_map_pair_some hN]
        have hek : e.1 = row_key r := by
          have h2 := List.find?_some hf
          simpa using h2
        have hra : row_key ra = row_key r := hk.trans hek
        exact congrArg Prod.fst hra
      | none =>
        rw [hsupp NameF hN]
    · rw [processRow_not_mem hA2 hN]
  have hsym : symbol_base (processRow cols A r SymF) = symbol_base (r SymF) := by
    by_cases hS : SymF ∈ cols
    · rw [processRow_mem hA2 hS]
      unfold annoValue
      cases hf : A.find? (fun e => e.1 = row_key r) with
      | some e =>
        obtain ⟨hne, ra, hk, hv⟩ := hA e (List.mem_of_find?_eq_some hf)
        show symbol_base (match e.2.find? (fun q => q.1 = SymF) with
            | some q => q.2
            | none => ([] : Str)) = symbol_base (r SymF)
        rw [hv, find_map_pair_some hS]
        have hek : e.1 = row_key r := by
          have h2 := List.find?_some hf
          simpa using h2
        have hra : row_key ra = row_key r := hk.trans hek
        exact congrArg Prod.snd hra
      | none =>
        rw [hsupp SymF hS]
    · rw [processRow_not_mem hA2 hS]
  rw [hname, hsym]

end Refresh

namespace Refresh

theorem annoMap_shape {cols : List Str} {rows : List Row} :
    ∀ e ∈ annoMap cols rows, ∃ f : Row,
      e.2 = cols.map (fun c2 => (c2, f c2)) := by
  intro e he
  obtain ⟨_, ra, _, _, hv⟩ := annoMap_mem he
  exact ⟨ra, hv⟩

theorem annoMap_keyshape {cols : List Str} {rows : List Row} :
    ∀ e ∈ annoMap cols rows, e.1 ≠ ([], []) ∧ ∃ ra : Row,
      row_key ra = e.1 ∧ e.2 = cols.map (fun c2 => (c2, ra c2)) := by
  intro e he
  obtain ⟨hne, ra, _, hk, hv⟩ := annoMap_mem he
  exact ⟨hne, ra, hk, hv⟩

theorem annoValue_eq_of_find {A : List ((Str × Str) × List (Str × Str))}
    {k : Str × Str} {c : Str} {e : (Str × Str) × List (Str × Str)}
    (hf : A.find? (fun e2 => e2.1 = k) = some e)
    {cols : List Str} {f : Row} (hv : e.2 = cols.map (fun c2 => (c2, f c2)))
    (hc : c ∈ cols) : annoValue A k c = f c := by
  unfold annoValue
  rw [hf]
  show (match e.2.find? (fun q => q.1 = c) with
    | some q => q.2
    | none => ([] : Str)) = f c
  rw [hv, find_map_pair_some hc]

theorem annoValue_eq_nil_of_none {A : List ((Str × Str) × List (Str × Str))}
    {k : Str × Str} {c : Str}
    (hf : A.find? (fun e2 => e2.1 = k) = none) : annoValue A k c = [] := by
  unfold annoValue
  rw [hf]

/-- The fully zeta-expanded form of one refresh run. -/
theorem refreshRun_eq (bf : List Str) (mraw : List (List Str)) (af : List Str)
    (araw : List (List Str)) (en ec : List Str) (ti : List (Str × List Str)) :
    refreshRun bf mraw af araw en ec ti =
      ((af.filter (pcol bf)).foldl addUnique bf,
       (((mraw.map (rowOfCSV bf)).filter
           (fun r => !Compare.row_exists r en ec ti)).map
         (processRow (af.filter (pcol bf))
           (annoMap (af.filter (pcol bf)) (araw.map (rowOfCSV af))))).map
         (fun r => ((af.filter (pcol bf)).foldl addUnique bf).map r)) := rfl

theorem run2_fields (bf af : List Str) :
    (((af.filter (pcol bf)).foldl addUnique bf).filter (pcol bf)).foldl
        addUnique bf =
      (af.filter (pcol bf)).foldl addUnique bf := by
  rw [extra_cols_round]
  exact out_fields_round bf af

/-- A processed row is supported on the output header: every column
outside it reads as empty. -/
theorem processed_supp {bf af : List Str} {araw : List (List Str)} {r0 : Row}
    (hsupp : ∀ c, ¬ c ∈ bf → r0 c = []) :
    ∀ c, ¬ c ∈ (af.filter (pcol bf)).foldl addUnique bf →
      processRow (af.filter (pcol bf))
        (annoMap (af.filter (pcol bf)) (araw.map (rowOfCSV af))) r0 c = [] := by
  intro c hc
  rw [foldl_addUnique_eq] at hc
  have hcb : ¬ c ∈ bf := fun hm => hc (List.mem_append.mpr (Or.inl hm))
  have hcD : ¬ c ∈ dedupNotIn bf (af.filter (pcol bf)) :=
    fun hm => hc (List.mem_append.mpr (Or.inr hm))
  have hcE : ¬ c ∈ af.filter (pcol bf) := by
    intro hm
    have hp : pcol bf c = true := List.of_mem_filter hm
    have h2 : ¬ c ∈ bf := by
      simp [pcol] at hp
      exact hp.2
    exact hcD (mem_dedupNotIn_of hm h2)
  rw [processRow_not_mem annoMap_shape hcE]
  exact hsupp c hcb

/-- Reading the first run's written records back through the CSV
interface reproduces the processed rows. -/
theorem rows2_eq_R1 (bf : List Str) (mraw : List (List Str)) (af : List Str)
    (araw : List (List Str)) (en ec : List Str) (ti : List (Str × List Str)) :
    (((((mraw.map (rowOfCSV bf)).filter
          (fun r => !Compare.row_exists r en ec ti)).map
        (processRow (af.filter (pcol bf))
          (annoMap (af.filter (pcol bf)) (araw.map (rowOfCSV af))))).map
      (fun r => ((af.filter (pcol bf)).foldl addUnique bf).map r)).map
     (rowOfCSV ((af.filter (pcol bf)).foldl addUnique bf)))
    = ((mraw.map (rowOfCSV bf)).filter
        (fun r => !Compare.row_exists r en ec ti)).map
        (processRow (af.filter (pcol bf))
          (annoMap (af.filter (pcol bf)) (araw.map (rowOfCSV af)))) := by
  rw [List.map_map]
  have h : ∀ r ∈ ((mraw.map (rowOfCSV bf)).filter
        (fun r => !Compare.row_exists r en ec ti)).map
        (processRow (af.filter (pcol bf))
          (annoMap (af.filter (pcol bf)) (araw.map (rowOfCSV af)))),
      (rowOfCSV ((af.filter (pcol bf)).foldl addUnique bf) ∘
        (fun r2 => ((af.filter (pcol bf)).foldl addUnique bf).map r2)) r =
      id r := by
    intro r hrm
    obtain ⟨r0, hr0, hr0eq⟩ := List.mem_map.mp hrm
    have hr0mem : r0 ∈ mraw.map (rowOfCSV bf) := (List.mem_filter.mp hr0).1
    have hs0 : ∀ c, ¬ c ∈ bf → r0 c = [] := market_row_supp hr0mem
    show rowOfCSV _ (((af.filter (pcol bf)).foldl addUnique bf).map r) = r
    subst hr0eq
    exact rowOfCSV_roundtrip (processed_supp hs0)
  rw [List.map_congr_left h, List.map_id]

/-- The second run's per-row processing agrees with the first run's:
annotations looked up through the map rebuilt from the first run's
output give back exactly the values the first run assigned. -/
theorem run2_rows_eq (bf : List Str) (mraw : List (List Str)) (af : List Str)
    (araw : List (List Str)) (en ec : List Str) (ti : List (Str × List Str)) :
    ((mraw.map (rowOfCSV bf)).filter
        (fun r => !Compare.row_exists r en ec ti)).map
      (processRow (dedupNotIn bf (af.filter (pcol bf)))
        (annoMap (dedupNotIn bf (af.filter (pcol bf)))
          (((mraw.map (rowOfCSV bf)).filter
              (fun r => !Compare.row_exists r en ec ti)).map
            (processRow (af.filter (pcol bf))
              (annoMap (af.filter (pcol bf)) (araw.map (rowOfCSV af)))))))
    = ((mraw.map (rowOfCSV bf)).filter
        (fun r => !Compare.row_exists r en ec ti)).map
        (processRow (af.filter (pcol bf))
          (annoMap (af.filter (pcol bf)) (araw.map (rowOfCSV af)))) := by
  apply List.map_congr_left
  intro r hr
  have hrmem : r ∈ mraw.map (rowOfCSV bf) := (List.mem_filter.mp hr).1
  have hsupp : ∀ c, ¬ c ∈ bf → r c = [] := market_row_supp hrmem
  have hsE1 : ∀ c ∈ af.filter (pcol bf), r c = [] := by
    intro c hc
    have hp : pcol bf c = true := List.of_mem_filter hc
    have h2 : ¬ c ∈ bf := by
      simp [pcol] at hp
      exact hp.2
    exact hsupp c h2
  have hr1key : row_key (processRow (af.filter (pcol bf))
      (annoMap (af.filter (pcol bf)) (araw.map (rowOfCSV af))) r) = row_key r :=
    processRow_key annoMap_keyshape hsE1
  funext c
  by_cases hcD : c ∈ dedupNotIn bf (af.filter (pcol bf))
  · have hcE1 : c ∈ af.filter (pcol bf) := (mem_dedupNotIn hcD).1
    rw [processRow_mem annoMap_shape hcD, processRow_mem annoMap_shape hcE1]
    by_cases hk0 : row_key r = ([], [])
    · have hn2 : (annoMap (dedupNotIn bf (af.filter (pcol bf)))
          (((mraw.map (rowOfCSV bf)).filter
              (fun r => !Compare.row_exists r en ec ti)).map
            (processRow (af.filter (pcol bf))
              (annoMap (af.filter (pcol bf)) (araw.map (rowOfCSV af)))))).find?
          (fun e => e.1 = row_key r) = none := by
        rw [List.find?_eq_none]
        intro e he
        simp only [decide_eq_true_eq]
        intro heq
        exact (annoMap_mem he).1 (heq.trans hk0)
      have hn1 : (annoMap (af.filter (pcol bf))
          (araw.map (rowOfCSV af))).find?
          (fun e => e.1 = row_key r) = none := by
        rw [List.find?_eq_none]
        intro e he
        simp only [decide_eq_true_eq]
        intro heq
        exact (annoMap_mem he).1 (heq.trans hk0)
      rw [annoValue_eq_nil_of_none hn2, annoValue_eq_nil_of_none hn1]
    · have hr1mem : processRow (af.filter (pcol bf))
          (annoMap (af.filter (pcol bf)) (araw.map (rowOfCSV af))) r ∈
          ((mraw.map (rowOfCSV bf)).filter
              (fun r => !Compare.row_exists r en ec ti)).map
            (processRow (af.filter (pcol bf))
              (annoMap (af.filter (pcol bf)) (araw.map (rowOfCSV af)))) :=
        List.mem_map_of_mem _ hr
      have hk1 : row_key (processRow (af.filter (pcol bf))
          (annoMap (af.filter (pcol bf)) (araw.map (rowOfCSV af))) r) ≠
          ([], []) := by
        rw [hr1key]
        exact hk0
      have hsome := @annoMap_find_isSome
        (dedupNotIn bf (af.filter (pcol bf))) _ _ hr1mem hk1
      rw [hr1key] at hsome
      obtain ⟨e2, hf2⟩ := Option.isSome_iff_exists.mp hsome
      obtain ⟨hne2, ra2, hm2, hk2, hv2⟩ :=
        annoMap_mem (List.mem_of_find?_eq_some hf2)
      have hek2 : e2.1 = row_key r := by
        have h2 := List.find?_some hf2
        simpa using h2
      have hA2val := annoValue_eq_of_find hf2 hv2 hcD
      obtain ⟨r0, hr0flt, hr0eq⟩ := List.mem_map.mp hm2
      have hr0mem : r0 ∈ mraw.map (rowOfCSV bf) := (List.mem_filter.mp hr0flt).1
      have hs0 : ∀ c2 ∈ af.filter (pcol bf), r0 c2 = [] := by
        intro c2 hc2
        have hp : pcol bf c2 = true := List.of_mem_filter hc2
        have h2 : ¬ c2 ∈ bf := by
          simp [pcol] at hp
          exact hp.2
        exact market_row_supp hr0mem c2 h2
      have hr0key : row_key (processRow (af.filter (pcol bf))
          (annoMap (af.filter (pcol bf)) (araw.map (rowOfCSV af))) r0) =
          row_key r0 :=
        processRow_key annoMap_keyshape hs0
      have hval0 : ra2 c = annoValue
          (annoMap (af.filter (pcol bf)) (araw.map (rowOfCSV af)))
          (row_key r0) c := by
        rw [← hr0eq]
        exact processRow_mem annoMap_shape hcE1
      have hkk : row_key r0 = row_key r := by
        rw [← hr0key]
        rw [hr0eq]
        exact hk2.trans hek2
      rw [hA2val, hval0, hkk]
  · have hcE1 : ¬ c ∈ af.filter (pcol bf) := by
      intro hc
      have hp : pcol bf c = true := List.of_mem_filter hc
      have h2 : ¬ c ∈ bf := by
        simp [pcol] at hp
        exact hp.2
      exact hcD (mem_dedupNotIn_of hc h2)
    rw [processRow_not_mem annoMap_shape hcD,
      processRow_not_mem annoMap_shape hcE1]

/-- C3.  Running the DiffMerger refresh twice in a row on unchanged
candidate and reference datasets is a fixed point: the second run's
output records, annotation values and column order are identical to the
first run's output. -/
theorem refresh_fixed_point (bf : List Str) (mraw : List (List Str))
    (af : List Str) (araw : List (List Str)) (en ec : List Str)
    (ti : List (Str × List Str)) :
    refreshRun bf mraw
        (refreshRun bf mraw af araw en ec ti).1
        (refreshRun bf mraw af araw en ec ti).2 en ec ti =
      refreshRun bf mraw af araw en ec ti := by
  show refreshRun bf mraw
      ((af.filter (pcol bf)).foldl addUnique bf)
      ((((mraw.map (rowOfCSV bf)).filter
          (fun r => !Compare.row_exists r en ec ti)).map
        (processRow (af.filter (pcol bf))
          (annoMap (af.filter (pcol bf)) (araw.map (rowOfCSV af))))).map
        (fun r => ((af.filter (pcol bf)).foldl addUnique bf).map r))
      en ec ti =
    ((af.filter (pcol bf)).foldl addUnique bf,
     (((mraw.map (rowOfCSV bf)).filter
         (fun r => !Compare.row_exists r en ec ti)).map
       (processRow (af.filter (pcol bf))
         (annoMap (af.filter (pcol bf)) (araw.map (rowOfCSV af))))).map
       (fun r => ((af.filter (pcol bf)).foldl addUnique bf).map r))
  rw [refreshRun_eq]
  rw [extra_cols_round]
  rw [rows2_eq_R1]
  rw [out_fields_round]
  rw [run2_rows_eq]

end Refresh
